import Mathlib

/-!
Verification development for the FST-Spell-Checker repository
(src/fsa.py and src/fst.py).

Embedding conventions, chosen to mirror the Python source:
* a Python `dict` is an insertion-ordered association list (`List (K × V)`);
  keys are unique by construction, exactly as in Python;
* a Python `set` is an insertion-ordered duplicate-free list; `set.add` is
  `addToSet` (append if absent).  For the small integer sets the source
  iterates over, CPython's iteration order coincides with the ascending
  insertion order produced by the source's own constructions;
* Python `while` loops become fueled recursion; exhausted fuel is reported
  by a dedicated result constructor, never silently absorbed;
* a Python exception (IndexError from `s[0]`, StopIteration from
  `next(iter(empty))`) is an explicit error constructor of the result type;
* an FST symbol is `Option Char`: `some c` is an ordinary character label,
  `none` is the empty-string epsilon label `""`.  An FSA symbol is `Char`
  (fsa.py never uses epsilon);
* weights are integers (`Int`); all weights appearing in the repository's
  own test drivers are integers.
-/

/-- Symbol type of the transducer: `some c` is the character `c`,
`none` is the Python empty string `""` used as epsilon. -/
abbrev Symb := Option Char

/-- Lookup in a Python dict modelled as an association list (first match;
keys are unique by construction, as in a Python dict). -/
def dget {K V : Type} [DecidableEq K] : List (K × V) → K → Option V
  | [], _ => none
  | (k', v) :: r, k => if k' = k then some v else dget r k

/-- Python `set.add`: append the element if it is not already present. -/
def addToSet {α : Type} [DecidableEq α] (l : List α) (x : α) : List α :=
  if x ∈ l then l else l ++ [x]

/-- Python `if key not in d: d[key] = set()` followed by `d[key].add(x)`. -/
def dAddToSet {K V : Type} [DecidableEq K] [DecidableEq V] :
    List (K × List V) → K → V → List (K × List V)
  | [], k, x => [(k, [x])]
  | (k', v) :: r, k, x =>
      if k' = k then (k', addToSet v x) :: r else (k', v) :: dAddToSet r k x

/-- Python `while s2 in self._states: s2 += 1`, fueled (a window of
`states.length + 1` consecutive candidates always contains a free one,
so the fuel used at call sites never runs out). -/
def bump (states : List Nat) : Nat → Nat → Nat
  | s, 0 => s
  | s, f + 1 => if s ∈ states then bump states (s + 1) f else s

/-- The `FSA` class of src/fsa.py.  `transitions` maps `(state, symbol)` to
the set of target states; `_alphabet` and `_states` are the bookkeeping
sets the class maintains. -/
structure FSA where
  transitions : List ((Nat × Char) × List Nat)
  start_state : Option Nat
  accepting : List Nat
  is_deterministic : Bool
  _alphabet : List Char
  _states : List Nat
deriving DecidableEq, Repr

/-- A fresh `FSA(deterministic=True)` (the `__init__` of fsa.py). -/
def FSA.empty : FSA :=
  { transitions := [], start_state := none, accepting := [],
    is_deterministic := true, _alphabet := [], _states := [] }

/-- `FSA.add_transition(s1, sym, s2, accepting)` of fsa.py.  A `none`
second state requests a fresh state id.  Returns the updated automaton
together with the target state (the Python method's return value). -/
def FSA.add_transition (A : FSA) (s1 : Nat) (sym : Char) (s2opt : Option Nat)
    (acc : Bool) : FSA × Nat :=
  let A1 := if A.start_state = none then
      { A with start_state := some s1, _states := addToSet A._states s1 } else A
  let s2 := match s2opt with
    | some s => s
    | none => bump A1._states A1._states.length (A1._states.length + 1)
  let states1 := addToSet (addToSet A1._states s1) s2
  let alpha1 := addToSet A1._alphabet sym
  let trans1 := dAddToSet A1.transitions (s1, sym) s2
  let acc1 := if acc then addToSet A1.accepting s2 else A1.accepting
  let det1 := if ((dget trans1 (s1, sym)).getD []).length > 1 then false
              else A1.is_deterministic
  ({ transitions := trans1, start_state := A1.start_state, accepting := acc1,
     is_deterministic := det1, _alphabet := alpha1, _states := states1 }, s2)

/-- Result of a recognition run: Python exceptions and fuel exhaustion are
explicit.  `indexError` is `s[0]`/`s[pos]` on an out-of-range position;
`stopIteration` is `next(iter(set()))` on an empty target set. -/
inductive RecogResult where
  | indexError : RecogResult
  | stopIteration : RecogResult
  | outOfFuel : RecogResult
  | ok : Bool → RecogResult
deriving DecidableEq, Repr

/-- The walk of `FSA._recognize_dfa`: follow the unique transition for each
symbol, rejecting when a step is undefined.  The current state is an
`Option` because `self.start_state` may be Python `None`; with a `None`
state every dict lookup misses and the final membership test is false,
which the `none` branches reproduce. -/
def FSA.rdfa (A : FSA) : Option Nat → List Char → RecogResult
  | st?, [] =>
      match st? with
      | some st => .ok (decide (st ∈ A.accepting))
      | none => .ok false
  | st?, c :: cs =>
      match st? with
      | none => .ok false
      | some st =>
          match dget A.transitions (st, c) with
          | none => .ok false
          | some [] => .stopIteration
          | some (t :: _) => A.rdfa (some t) cs

/-- One agenda item of `FSA._recognize_nfa`: `(node, inp_pos)`. -/
abbrev AgendaItem := Nat × Nat

/-- The agenda loop of `FSA._recognize_nfa`.  `agenda.pop()` pops the LAST
element (stack order).  Fueled; positions pushed never exceed the input
length, so the dependent index access is guarded exactly as the source's
`elif` structure guards it. -/
def FSA.rnfaLoop (A : FSA) (s : List Char) : Nat → List AgendaItem → RecogResult
  | _, [] => .ok false
  | 0, _ :: _ => .outOfFuel
  | f + 1, i :: rest0 =>
      let item := (i :: rest0).getLast (by simp)
      let rest := (i :: rest0).dropLast
      let node := item.1
      let pos := item.2
      if pos = s.length then
        if node ∈ A.accepting then .ok true else A.rnfaLoop s f rest
      else
        if h : pos < s.length then
          let nexts := ((dget A.transitions (node, s.get ⟨pos, h⟩)).getD []).map
            (fun t => (t, pos + 1))
          A.rnfaLoop s f (rest ++ nexts)
        else .indexError

/-- `FSA._recognize_nfa`: seeds the agenda from the start state on `s[0]`
(raising IndexError on the empty string, before any length check), then
runs the agenda loop. -/
def FSA.rnfa (A : FSA) (s : List Char) (fuel : Nat) : RecogResult :=
  match s with
  | [] => .indexError
  | c0 :: _ =>
      let agenda := match A.start_state with
        | none => []
        | some st => ((dget A.transitions (st, c0)).getD []).map (fun t => (t, 1))
      A.rnfaLoop s fuel agenda

/-- `FSA.recognize`: dispatch on the determinism flag. -/
def FSA.recognize (A : FSA) (s : List Char) (fuel : Nat) : RecogResult :=
  if A.is_deterministic then A.rdfa A.start_state s else A.rnfa s fuel

/-- The inner `for state in fsa.transitions.get((current_state, char), [])`
loop of `build_trie` together with the `if next_state is None` fallback:
reuse the existing target, or split on a genuinely non-deterministic entry,
or create a fresh state. -/
def stepChar (A : FSA) (cur : Nat) (c : Char) : FSA × Nat :=
  let tgts := (dget A.transitions (cur, c)).getD []
  let p := tgts.foldl (fun (acc : FSA × Option Nat) st =>
    match acc.2 with
    | none => (acc.1, some st)
    | some _ =>
        let A1 := { acc.1 with is_deterministic := false }
        let r1 := A1.add_transition cur c none false
        let r2 := r1.1.add_transition r1.2 c (some st) false
        (r2.1, some r1.2)) (A, none)
  match p.2 with
  | none => p.1.add_transition cur c none false
  | some nxt => (p.1, nxt)

/-- The `for char in word` walk of `build_trie`. -/
def insertChars : FSA → Nat → List Char → FSA × Nat
  | A, cur, [] => (A, cur)
  | A, cur, c :: cs =>
      let r := stepChar A cur c
      insertChars r.1 r.2 cs

/-- Processing one word of `build_trie`: walk/extend the path from the
start state, then mark the final state accepting.  The `none` branch is
unreachable in `build_trie`, which sets the start state to `0` up front. -/
def insertWord (A : FSA) (w : List Char) : FSA :=
  match A.start_state with
  | none => A
  | some s0 =>
      let r := insertChars A s0 w
      { r.1 with accepting := addToSet r.1.accepting r.2 }

/-- `build_trie(words)` of fsa.py. -/
def build_trie (words : List (List Char)) : FSA :=
  let A0 : FSA := { FSA.empty with start_state := some 0, _states := [0] }
  words.foldl insertWord A0

/-- A dynamically-typed Python state value as used by fst.py: a
non-negative integer for primitive transducers, or a (possibly nested)
tuple for composed ones.  One type for both lets the embedding mirror the
source's dynamic typing: `FST()` always seeds `_states` with the integer
`0`, and mixed membership tests (`s2 in self._states`) compare an integer
against tuples and fail, exactly as the derived `DecidableEq` does here. -/
inductive PyState where
  | int : Nat → PyState
  | pair : PyState → PyState → PyState
deriving DecidableEq, Repr

/-- The weighted `FST` class of src/fst.py.  `transitions` maps
`(state, input-symbol)` to the set of `(output-symbol, target, weight)`
triples. -/
structure FST where
  transitions : List ((PyState × Symb) × List (Symb × PyState × Int))
  start_state : Option PyState
  accepting : List PyState
  _sigma_in : List Symb
  _sigma_out : List Symb
  _states : List PyState
deriving DecidableEq, Repr

/-- A fresh `FST()` (the `__init__` of fst.py, whose `_states` starts
as `{0}`). -/
def FST.init : FST :=
  { transitions := [], start_state := none, accepting := [],
    _sigma_in := [], _sigma_out := [], _states := [.int 0] }

/-- Python `while s2 in self._states: s2 += 1` for the FST class: the
candidate is an integer even when `_states` holds tuples.  Fueled; a window
of `states.length + 1` consecutive integers always contains a free one. -/
def bumpSt (states : List PyState) : Nat → Nat → Nat
  | s, 0 => s
  | s, f + 1 => if PyState.int s ∈ states then bumpSt states (s + 1) f else s

/-- Fresh state allocation of `FST.add_transition`:
`s2 = len(self._states)` bumped past collisions. -/
def freshSt (states : List PyState) : PyState :=
  .int (bumpSt states states.length (states.length + 1))

/-- `FST.add_transition(s1, insym, s2, outsym, w, accepting)` of fst.py.
`s2opt = none` requests a fresh state; `outsymopt = none` is the Python
`outsym=None` default, which copies `insym` (note that an explicit epsilon
output is `some none`, matching Python's `""`, which is not `None`).
Unlike the FSA version, only `s2` is recorded in `_states` (the source adds
`s1` only on the very first call, when it becomes the start state). -/
def FST.add_transition (m : FST) (s1 : PyState) (insym : Symb)
    (s2opt : Option PyState) (outsymopt : Option Symb) (w : Int)
    (acc : Bool) : FST × PyState :=
  let m1 := if m.start_state = none then
      { m with start_state := some s1, _states := addToSet m._states s1 } else m
  let s2 := match s2opt with
    | some s => s
    | none => freshSt m1._states
  let m2 := if s2 ∈ m1._states then m1 else { m1 with _states := m1._states ++ [s2] }
  let outsym := match outsymopt with
    | some o => o
    | none => insym
  let m3 := { m2 with
      _sigma_in := addToSet m2._sigma_in insym,
      _sigma_out := addToSet m2._sigma_out outsym,
      transitions := dAddToSet m2.transitions (s1, insym) (outsym, s2, w),
      accepting := if acc then addToSet m2.accepting s2 else m2.accepting }
  (m3, s2)

/-- `FST.get_transitions(s1, insym)` of fst.py: yields `(s2, outsym, w)`
triples for the given input symbol, or for every symbol of `_sigma_in`
when `insymq` is Python `None`. -/
def FST.get_transitions (m : FST) (s1 : PyState) (insymq : Option Symb) :
    List (PyState × Symb × Int) :=
  let syms : List Symb := match insymq with
    | none => m._sigma_in
    | some i => [i]
  syms.flatMap (fun sym =>
    match dget m.transitions (s1, sym) with
    | some l => l.map (fun t => (t.2.1, t.1, t.2.2))
    | none => [])

/-- `FST.fromfsa(fsa)` of fst.py: lift every FSA transition to an identity
edge of weight 0, then copy the accepting set and start state.  FSA states
are integers, so they embed as `PyState.int`. -/
def FST.fromfsa (A : FSA) : FST :=
  let f1 := A.transitions.foldl (fun f entry =>
    entry.2.foldl (fun f s2 =>
      (f.add_transition (.int entry.1.1) (some entry.1.2) (some (.int s2))
        (some (some entry.1.2)) 0 false).1) f) FST.init
  { f1 with accepting := A.accepting.map .int,
            start_state := A.start_state.map .int }

/-- `FST.invert` of fst.py: re-add every edge with input and output symbols
swapped, then copy the accepting set and start state onto the fresh FST.
The source overwrites `self.__dict__`; the embedding returns the new value. -/
def FST.invert (m : FST) : FST :=
  let inv1 := m.transitions.foldl (fun inv entry =>
    (m.get_transitions entry.1.1 (some entry.1.2)).foldl (fun inv trip =>
      (inv.add_transition entry.1.1 trip.2.1 (some trip.1) (some entry.1.2)
        trip.2.2 false).1) inv) FST.init
  { inv1 with accepting := m.accepting, start_state := m.start_state }

/-- The local `Path` class of `FST.transduce`: current state, accumulated
output string, accumulated weight, next input position, and whether the
current state is accepting. -/
structure TPath where
  current_state : PyState
  string : List Char
  weight : Int
  input_pos : Nat
  is_accepting : Bool
deriving DecidableEq, Repr

/-- Python `path.string + outsym`: appending an epsilon output (`""`)
appends nothing. -/
def outAppend (out : List Char) (o : Symb) : List Char :=
  match o with
  | some c => out ++ [c]
  | none => out

/-- Result of `FST.transduce`: the collected set of
(output string, total weight) pairs, or an explicit IndexError (from `s[0]`
on the empty input), or exhausted fuel for the frontier loop. -/
inductive TdResult where
  | indexError : TdResult
  | outOfFuel : TdResult
  | ok : List (List Char × Int) → TdResult
deriving DecidableEq, Repr

/-- Expansion of one frontier path at input position `pos < len s`, reading
character `c`: new paths for transitions on `c` (position advances) and for
epsilon transitions (position unchanged), in that order. -/
def expandPath (m : FST) (p : TPath) (c : Char) : List TPath :=
  (((dget m.transitions (p.current_state, some c)).getD []).map (fun t =>
    { current_state := t.2.1, string := outAppend p.string t.1,
      weight := p.weight + t.2.2, input_pos := p.input_pos + 1,
      is_accepting := decide (t.2.1 ∈ m.accepting) })) ++
  (((dget m.transitions (p.current_state, none)).getD []).map (fun t =>
    { current_state := t.2.1, string := outAppend p.string t.1,
      weight := p.weight + t.2.2, input_pos := p.input_pos,
      is_accepting := decide (t.2.1 ∈ m.accepting) }))

/-- One pass of the `for path in paths.copy()` loop of `FST.transduce`:
every path is removed and either collected (input consumed) or expanded.
A path whose position exceeded the input length would satisfy neither
branch of the source's `if`/`elif` and would stay in the frontier forever;
it is kept, faithfully.  Returns the next frontier and the updated
collected set. -/
def tRound (m : FST) (s : List Char) (frontier : List TPath)
    (res : List (List Char × Int)) : List TPath × List (List Char × Int) :=
  frontier.foldl (fun acc p =>
    if p.input_pos = s.length then
      (acc.1, if p.is_accepting then addToSet acc.2 (p.string, p.weight) else acc.2)
    else if h : p.input_pos < s.length then
      (acc.1 ++ expandPath m p (s.get ⟨p.input_pos, h⟩), acc.2)
    else (acc.1 ++ [p], acc.2)) ([], res)

/-- The `while paths:` loop of `FST.transduce`, fueled. -/
def tLoop (m : FST) (s : List Char) :
    Nat → List TPath → List (List Char × Int) → TdResult
  | _, [], res => .ok res
  | 0, _ :: _, _ => .outOfFuel
  | f + 1, p :: fr, res =>
      let r := tRound m s (p :: fr) res
      tLoop m s f r.1 r.2

/-- `FST.transduce(s)` of fst.py: seed the frontier from the start state on
`s[0]` (raising IndexError on the empty string) and on epsilon, then run
the frontier loop.  A Python `None` start state makes both seed lookups
miss, leaving the frontier empty. -/
def FST.transduce (m : FST) (s : List Char) (fuel : Nat) : TdResult :=
  match s with
  | [] => .indexError
  | c0 :: _ =>
      let seeds := match m.start_state with
        | none => []
        | some st =>
            (((dget m.transitions (st, some c0)).getD []).map (fun t =>
              { current_state := t.2.1, string := outAppend [] t.1,
                weight := t.2.2, input_pos := 1,
                is_accepting := decide (t.2.1 ∈ m.accepting) : TPath })) ++
            (((dget m.transitions (st, none)).getD []).map (fun t =>
              { current_state := t.2.1, string := outAppend [] t.1,
                weight := t.2.2, input_pos := 0,
                is_accepting := decide (t.2.1 ∈ m.accepting) : TPath }))
      tLoop m s fuel seeds []

/-- `FST._cross(s1, s2)` of fst.py: the set of pairs. -/
def FST.cross (s1 s2 : List PyState) : List PyState :=
  s1.foldl (fun acc e1 =>
    s2.foldl (fun acc e2 => addToSet acc (.pair e1 e2)) acc) []

/-- One pop of the reachability loop of `FST.compose_fst`:
`queue.pop()` pops the LAST element; each target not yet visited is
appended to both the visited set and the queue, with the visited set
updated as the iteration goes (so duplicates within one expansion are
filtered like in the source). -/
def reachLoop (c : FST) : Nat → List PyState → List PyState → List PyState
  | _, visited, [] => visited
  | 0, visited, _ :: _ => visited
  | f + 1, visited, q :: qs =>
      let s1 := (q :: qs).getLast (by simp)
      let rest := (q :: qs).dropLast
      let step := c._sigma_in.foldl (fun (acc : List PyState × List PyState) insym =>
        (c.get_transitions s1 (some insym)).foldl (fun acc2 trip =>
          if trip.1 ∈ acc2.1 then acc2
          else (acc2.1 ++ [trip.1], acc2.2 ++ [trip.1])) acc) (visited, rest)
      reachLoop c f step.1 step.2

/-- Total number of transition triples; 2 + this bounds the number of pops
the reachability loop of `compose_fst` can perform (each pop beyond the
first corresponds to a previously appended, distinct target state), so the
fuel below never runs out. -/
def flatLen (c : FST) : Nat :=
  (c.transitions.map (fun e => e.2.length)).sum

/-- `FST.compose_fst(m1, m2)` of fst.py.  The source first MUTATES `m1` by
adding an epsilon self-loop on every state of `m1._states`; the embedding
returns that updated `m1` as the second component.  `m2` is only read.
The product start state is the literal pair `(0, 0)`; the accepting set is
the cross product restricted, at the end, to the states reachable from
`(0, 0)`; transitions from unreachable states are removed. -/
def FST.compose_fst (m1 m2 : FST) : FST × FST :=
  let composed1 : FST :=
    { transitions := [], start_state := some (.pair (.int 0) (.int 0)),
      accepting := FST.cross m1.accepting m2.accepting,
      _sigma_in := [], _sigma_out := [], _states := [.int 0] }
  let m1b := m1._states.foldl (fun m st =>
    (m.add_transition st none (some st) none 0 false).1) m1
  let composed2 := m1b.transitions.foldl (fun c entry =>
    (m1b.get_transitions entry.1.1 (some entry.1.2)).foldl (fun c trip1 =>
      m2.transitions.foldl (fun c entry2 =>
        if trip1.2.1 = entry2.1.2 then
          (m2.get_transitions entry2.1.1 (some entry2.1.2)).foldl (fun c trip2 =>
            (c.add_transition (.pair entry.1.1 entry2.1.1) entry.1.2
              (some (.pair trip1.1 trip2.1)) (some trip2.2.1) trip2.2.2 false).1) c
        else c) c) c) composed1
  let start0 : PyState := .pair (.int 0) (.int 0)
  let visited := reachLoop composed2 (2 + flatLen composed2) [start0] [start0]
  let composed3 :=
    { composed2 with
        _states := addToSet visited start0,
        accepting := composed2.accepting.filter (fun a => a ∈ visited),
        transitions := composed2.transitions.filter (fun e => e.1.1 ∈ visited) }
  (composed3, m1b)

/-- Result of `FSA.minimize`: `error` is a raised Python exception
(StopIteration from `next(iter(set()))` or a KeyError on a dict lookup),
`outOfFuel` reports exhausted fuel for the refinement loop. -/
inductive MinResult where
  | error : MinResult
  | outOfFuel : MinResult
  | ok : FSA → MinResult
deriving DecidableEq, Repr

/-- Truth of `MinResult.ok`. -/
def MinResult.isOk : MinResult → Bool
  | .ok _ => true
  | _ => false

/-- Python `transitions[s1].update({sym: s2})`: overwrite in place or
append. -/
def innerUpd (d : List (Char × Nat)) (sym : Char) (t : Nat) :
    List (Char × Nat) :=
  match d with
  | [] => [(sym, t)]
  | (c, v) :: r => if c = sym then (c, t) :: r else (c, v) :: innerUpd r sym t

/-- The `{s1: {sym: s2}}` nested-dict update of `FSA.minimize`'s first
loop. -/
def outerUpd (d : List (Nat × List (Char × Nat))) (s1 : Nat) (sym : Char)
    (t : Nat) : List (Nat × List (Char × Nat)) :=
  match d with
  | [] => [(s1, [(sym, t)])]
  | (s, v) :: r =>
      if s = s1 then (s, innerUpd v sym t) :: r else (s, v) :: outerUpd r s1 sym t

/-- First loop of `FSA.minimize`: rebuild the transition dictionary in the
shape `{s1: {sym: s2}}`, taking `next(iter(...))` of each target set (the
assumed-deterministic single target); an empty target set raises. -/
def minTransGo : List ((Nat × Char) × List Nat) →
    List (Nat × List (Char × Nat)) → Option (List (Nat × List (Char × Nat)))
  | [], d => some d
  | (k, tgts) :: r, d =>
      match tgts with
      | [] => none
      | t :: _ => minTransGo r (outerUpd d k.1 k.2 t)

/-- Second loop of `FSA.minimize`: give every state that has no outgoing
transition an empty inner dictionary. -/
def addLeftovers (states : List Nat) (d : List (Nat × List (Char × Nat))) :
    List (Nat × List (Char × Nat)) :=
  states.foldl (fun d s =>
    if (dget d s).isSome then d else d ++ [(s, [])]) d

/-- Stable insertion into a list sorted by the character component
(Python `sorted(..., key=lambda x: x[0])`; keys are distinct here). -/
def insSorted (x : Char × Nat) : List (Char × Nat) → List (Char × Nat)
  | [] => [x]
  | y :: r => if x.1 < y.1 then x :: y :: r else y :: insSorted x r

/-- Sort pairs by character (insertion sort, stable like Python's). -/
def sortPairs (l : List (Char × Nat)) : List (Char × Nat) :=
  l.foldl (fun acc x => insSorted x acc) []

/-- The `(sym, subset_of[s2])` mapping inside `FSA._get_set_id`; a missing
`subset_of` entry is a KeyError. -/
def setIdMap (subsetOf : List (Nat × Nat)) :
    List (Char × Nat) → Option (List (Char × Nat))
  | [] => some []
  | (c, v) :: r =>
      match dget subsetOf v with
      | none => none
      | some b =>
          match setIdMap subsetOf r with
          | none => none
          | some rest => some ((c, b) :: rest)

/-- `FSA._get_set_id(s, transitions, subset_of)`: the sorted signature of
state `s` under the current partition. -/
def get_set_id (d2 : List (Nat × List (Char × Nat)))
    (subsetOf : List (Nat × Nat)) (s : Nat) : Option (List (Char × Nat)) :=
  match dget d2 s with
  | none => none
  | some inner =>
      match setIdMap subsetOf inner with
      | none => none
      | some l => some (sortPairs l)

/-- Dict update `{state: i}` with overwrite (used by
`FSA._get_state_subset_dict`). -/
def subUpd (d : List (Nat × Nat)) (k v : Nat) : List (Nat × Nat) :=
  match d with
  | [] => [(k, v)]
  | (k', v') :: r => if k' = k then (k', v) :: r else (k', v') :: subUpd r k v

/-- `FSA._get_state_subset_dict(partition)`: map each state to the index of
its block. -/
def mkSubsetOf (partition : List (List Nat)) : List (Nat × Nat) :=
  (partition.foldl (fun (acc : List (Nat × Nat) × Nat) subset =>
    (subset.foldl (fun d st => subUpd d st acc.2) acc.1, acc.2 + 1)) ([], 0)).1

/-- `subsubsets[set_id].append(s)` or creation of a new `{set_id: [s]}`
entry, preserving dict insertion order. -/
def groupAdd (groups : List (List (Char × Nat) × List Nat))
    (sid : List (Char × Nat)) (s : Nat) :
    List (List (Char × Nat) × List Nat) :=
  match groups with
  | [] => [(sid, [s])]
  | (gid, l) :: r =>
      if gid = sid then (gid, l ++ [s]) :: r else (gid, l) :: groupAdd r sid s

/-- Group the states of one block by their set id. -/
def refineBlockGo (d2 : List (Nat × List (Char × Nat)))
    (subsetOf : List (Nat × Nat)) : List Nat →
    List (List (Char × Nat) × List Nat) →
    Option (List (List (Char × Nat) × List Nat))
  | [], groups => some groups
  | s :: r, groups =>
      match get_set_id d2 subsetOf s with
      | none => none
      | some sid => refineBlockGo d2 subsetOf r (groupAdd groups sid s)

/-- One refinement pass of `FSA.minimize`: split every block by the set ids
of its states and concatenate the new blocks in encounter order. -/
def refineGo (d2 : List (Nat × List (Char × Nat)))
    (subsetOf : List (Nat × Nat)) : List (List Nat) →
    Option (List (List Nat))
  | [] => some []
  | blk :: r =>
      match refineBlockGo d2 subsetOf blk [] with
      | none => none
      | some gs =>
          match refineGo d2 subsetOf r with
          | none => none
          | some rest => some (gs.map (fun g => g.2) ++ rest)

/-- One refinement pass over a whole partition, recomputing `subset_of`
from the current partition first. -/
def refinePart (d2 : List (Nat × List (Char × Nat)))
    (partition : List (List Nat)) : Option (List (List Nat)) :=
  refineGo d2 (mkSubsetOf partition) partition

/-- Result of the partition-refinement loop. -/
inductive PartRes where
  | error : PartRes
  | outOfFuel : PartRes
  | ok : List (List Nat) → PartRes
deriving DecidableEq, Repr

/-- The `while len(new_partition) != len(partition)` loop of
`FSA.minimize`.  Note the source uses the second-to-last partition
(variable `partition`) after the loop, which this returns. -/
def minLoop (d2 : List (Nat × List (Char × Nat))) :
    Nat → List (List Nat) → List (List Nat) → PartRes
  | fuel, part, newPart =>
      if newPart.length = part.length then .ok part
      else
        match fuel with
        | 0 => .outOfFuel
        | f + 1 =>
            match refinePart d2 newPart with
            | none => .error
            | some r => minLoop d2 f newPart r

/-- The merge loop of `FSA.minimize`: re-add every original transition
between block ids, marking the target block accepting iff the ORIGINAL
target state was accepting.  The minimized automaton's start state is set
to the original start state id directly, not to its block id. -/
def minMergeGo (A : FSA) (subsetOf : List (Nat × Nat)) :
    List ((Nat × Char) × List Nat) → FSA → Option FSA
  | [], M => some M
  | ((s1, sym), tgts) :: r, M =>
      match tgts with
      | [] => none
      | t :: _ =>
          match dget subsetOf s1, dget subsetOf t with
          | some b1, some b2 =>
              minMergeGo A subsetOf r
                (M.add_transition b1 sym (some b2) (decide (t ∈ A.accepting))).1
          | _, _ => none

/-- `FSA.minimize` of fsa.py.  The source overwrites `self.__dict__` with
the minimized automaton's; the embedding returns it. -/
def FSA.minimize (A : FSA) (fuel : Nat) : MinResult :=
  match minTransGo A.transitions [] with
  | none => .error
  | some d2a =>
      let d2 := addLeftovers A._states d2a
      let init := [A._states.filter (fun s => s ∉ A.accepting), A.accepting]
      match minLoop d2 fuel [] init with
      | .error => .error
      | .outOfFuel => .outOfFuel
      | .ok part =>
          match minMergeGo A (mkSubsetOf part) A.transitions
              { FSA.empty with start_state := A.start_state } with
          | none => .error
          | some M => .ok M

/-- Lookup of a transition entry with Python's `.get(key, [])` default. -/
def lkup (m : FST) (k : PyState × Symb) : List (Symb × PyState × Int) :=
  (dget m.transitions k).getD []

/-- Flattened edge list of a transducer:
`(source, insym, outsym, target, weight)` tuples. -/
def flatE (m : FST) : List (PyState × Symb × Symb × PyState × Int) :=
  m.transitions.flatMap (fun e => e.2.map (fun t => (e.1.1, e.1.2, t.1, t.2.1, t.2.2)))

/-- Uniqueness of the dictionary keys of a transition table, an invariant
every Python dict has by construction. -/
def keysNodup (m : FST) : Prop := (m.transitions.map Prod.fst).Nodup

/-- Truth of epsilon-input presence: does any transition key of `m` carry
the epsilon input symbol? -/
def hasEpsInput (m : FST) : Bool :=
  m.transitions.any (fun e => e.1.2.isNone)

/-- A non-deterministic automaton (two `a`-targets out of state 0, the
first accepting), built through `add_transition` like the source would. -/
def nfa1 : FSA :=
  ((FSA.empty.add_transition 0 'a' (some 1) true).1.add_transition 0 'a'
    (some 2) false).1

/-- A transducer whose single transition has an epsilon INPUT symbol, the
kind of `m1` operand `compose_fst`'s docstring assumes away. -/
def m1eps : FST :=
  (FST.init.add_transition (.int 0) none (some (.int 1)) none 0 true).1

/-- A plain one-edge transducer used as the `m2` operand next to
`m1eps`. -/
def m2eps : FST :=
  (FST.init.add_transition (.int 0) (some 'a') (some (.int 1)) none 0 true).1

/-- A one-state transducer with a single `a:a` self-loop. -/
def m1c : FST :=
  (FST.init.add_transition (.int 0) (some 'a') (some (.int 0)) none 0 false).1

/-- The `m1` operand of the composition scenario in fst.py's `__main__`:
accepting `{2}`, edges (0,a)->(1,b), (1,a)->(1), (1,b)->(1), (1,a)->(2,b). -/
def m1 : FST :=
  (((({ FST.init with accepting := [.int 2]
      }.add_transition (.int 0) (some 'a') (some (.int 1)) (some (some 'b')) 0
        false).1.add_transition (.int 1) (some 'a') (some (.int 1)) none 0
        false).1.add_transition (.int 1) (some 'b') (some (.int 1)) none 0
        false).1.add_transition (.int 1) (some 'a') (some (.int 2))
        (some (some 'b')) 0 false).1

/-- The `m2` operand of the composition scenario in fst.py's `__main__`:
accepting `{0,1}`, edges (0,b)->(0), (0,c)->(0), (0,a)->(1), (1,a)->(1),
(1,c)->(0), (1,b)->(0,c). -/
def m2 : FST :=
  ((((({ FST.init with accepting := [.int 0, .int 1]
      }.add_transition (.int 0) (some 'b') (some (.int 0)) none 0
        false).1.add_transition (.int 0) (some 'c') (some (.int 0)) none 0
        false).1.add_transition (.int 0) (some 'a') (some (.int 1)) none 0
        false).1.add_transition (.int 1) (some 'a') (some (.int 1)) none 0
        false).1.add_transition (.int 1) (some 'c') (some (.int 0)) none 0
        false).1.add_transition (.int 1) (some 'b') (some (.int 0))
        (some (some 'c')) 0 false |>.1

/-- The weighted example transducer `a` of fst.py's `__main__` (five
weighted edges, accepting `{2}`). -/
def aExample : FST :=
  ((((FST.init.add_transition (.int 0) (some 'a') (some (.int 0))
        (some (some 'f')) 5 false).1.add_transition (.int 0) (some 'd')
        (some (.int 2)) (some (some 'f')) 3 true).1.add_transition (.int 0)
        (some 'a') (some (.int 1)) (some (some 'b')) 1
        false).1.add_transition (.int 1) (some 'a') (some (.int 2))
        (some (some 'c')) 2 true).1.add_transition (.int 1) (some 'd')
        (some (.int 2)) (some (some 'e')) 3 true |>.1

/-- The seven edges the composition scenario must produce, as
`(source, insym, outsym, target, weight)` tuples. -/
def expectedC2 : List (PyState × Symb × Symb × PyState × Int) :=
  [(.pair (.int 0) (.int 0), some 'a', some 'b', .pair (.int 1) (.int 0), 0),
   (.pair (.int 1) (.int 0), some 'b', some 'b', .pair (.int 1) (.int 0), 0),
   (.pair (.int 1) (.int 0), some 'a', some 'a', .pair (.int 1) (.int 1), 0),
   (.pair (.int 1) (.int 0), some 'a', some 'b', .pair (.int 2) (.int 0), 0),
   (.pair (.int 1) (.int 1), some 'a', some 'a', .pair (.int 1) (.int 1), 0),
   (.pair (.int 1) (.int 1), some 'b', some 'c', .pair (.int 1) (.int 0), 0),
   (.pair (.int 1) (.int 1), some 'a', some 'c', .pair (.int 2) (.int 0), 0)]

/-- The deterministic walk through an FSA's transition dictionary from a
given state, following the FIRST recorded target of each entry (the one
`next(iter(...))` yields); `none` when a step is undefined. -/
def follow (A : FSA) : Nat → List Char → Option Nat
  | q, [] => some q
  | q, c :: cs =>
      match dget A.transitions (q, c) with
      | some (t :: _) => follow A t cs
      | _ => none

/-- Acceptance of a string along the deterministic walk from state 0 (the
start state of every trie `build_trie` produces). -/
def followAcc (A : FSA) (u : List Char) : Bool :=
  match follow A 0 u with
  | some q => decide (q ∈ A.accepting)
  | none => false

/-- The invariant `build_trie` maintains: the automaton is a deterministic
tree over states `0 .. n-1` rooted at the start state 0.  `keys` says every
dictionary entry has a single in-range target; `inj` says no two distinct
strings reach the same state (tree-ness). -/
structure TrieInv (A : FSA) (n : Nat) : Prop where
  start_eq : A.start_state = some 0
  det : A.is_deterministic = true
  states_eq : A._states = List.range n
  npos : 0 < n
  keys : ∀ p ∈ A.transitions, p.1.1 < n ∧ ∃ t, p.2 = [t] ∧ t < n
  keys_nodup : (A.transitions.map Prod.fst).Nodup
  acc_lt : ∀ a ∈ A.accepting, a < n
  inj : ∀ u v q, follow A 0 u = some q → follow A 0 v = some q → u = v

/-- The automaton `build_trie` starts from: a fresh deterministic FSA with
start state 0. -/
def trieStart : FSA := { FSA.empty with start_state := some 0, _states := [0] }

/-- All target states appearing in a transducer's transition table. -/
def targetsOf (m : FST) : List PyState :=
  m.transitions.flatMap (fun e => e.2.map (fun tr => tr.2.1))

/-- Absence of epsilon cycles, witnessed by a ranking function that
strictly decreases along every epsilon-input transition.  For a transducer
with finitely many transitions this is exactly the absence of a cycle of
epsilon transitions: any rank witnesses acyclicity, and on a finite
epsilon-acyclic graph the length of the longest epsilon path from each
state is such a rank. -/
def NoEpsCycle (m : FST) : Prop :=
  ∃ rank : PyState → Nat,
    ∀ e ∈ m.transitions, ∀ tr ∈ e.2, e.1.2 = none →
      rank tr.2.1 < rank e.1.1

theorem dget_cons {K V : Type} [DecidableEq K] (k0 : K) (v0 : V)
    (r : List (K × V)) (k : K) :
    dget ((k0, v0) :: r) k = if k0 = k then some v0 else dget r k := rfl

theorem mem_addToSet {α : Type} [DecidableEq α] (l : List α) (x y : α) :
    y ∈ addToSet l x ↔ y ∈ l ∨ y = x := by
  by_cases h : x ∈ l
  · rw [addToSet, if_pos h]
    constructor
    · exact Or.inl
    · rintro (hy | rfl)
      · exact hy
      · exact h
  · rw [addToSet, if_neg h]
    simp

theorem dget_dAddToSet {K V : Type} [DecidableEq K] [DecidableEq V]
    (d : List (K × List V)) (k : K) (x : V) (k' : K) :
    dget (dAddToSet d k x) k' =
      if k' = k then some (addToSet ((dget d k).getD []) x) else dget d k' := by
  induction d with
  | nil =>
      by_cases h : k' = k
      · subst h
        simp [dAddToSet, dget_cons, addToSet, dget]
      · have h' : ¬ k = k' := fun hh => h hh.symm
        simp [dAddToSet, dget_cons, dget, h, h']
  | cons p r ih =>
      obtain ⟨k0, v0⟩ := p
      by_cases h0 : k0 = k
      · subst h0
        simp only [dAddToSet, if_pos rfl, dget_cons]
        by_cases h1 : k0 = k'
        · subst h1
          simp [dget_cons]
        · have h1' : ¬ k' = k0 := fun hh => h1 hh.symm
          simp [dget_cons, h1, h1']
      · have h0' : ¬ k = k0 := fun hh => h0 hh.symm
        simp only [dAddToSet, if_neg h0, dget_cons]
        by_cases h1 : k0 = k'
        · subst h1
          simp [h0, fun hh : k0 = k => h0 hh]
        · have h1' : ¬ k' = k0 := fun hh => h1 hh.symm
          simp [ih, h0, h1, h1']

theorem dget_mem {K V : Type} [DecidableEq K] (l : List (K × V)) (k : K)
    (v : V) (h : dget l k = some v) : (k, v) ∈ l := by
  induction l with
  | nil => simp [dget] at h
  | cons p r ih =>
      obtain ⟨k0, v0⟩ := p
      rw [dget_cons] at h
      by_cases h0 : k0 = k
      · subst h0
        rw [if_pos rfl] at h
        injection h with h
        subst h
        exact List.mem_cons_self _ _
      · rw [if_neg h0] at h
        exact List.mem_cons_of_mem _ (ih h)

theorem dget_eq_none_iff {K V : Type} [DecidableEq K] (l : List (K × V))
    (k : K) : dget l k = none ↔ k ∉ l.map Prod.fst := by
  induction l with
  | nil => simp [dget]
  | cons p r ih =>
      obtain ⟨k0, v0⟩ := p
      rw [dget_cons, List.map_cons]
      by_cases h0 : k0 = k
      · subst h0
        simp
      · rw [if_neg h0, ih]
        simp only [List.mem_cons]
        constructor
        · intro h
          rintro (h1 | h1)
          · exact h0 h1.symm
          · exact h h1
        · intro h h1
          exact h (Or.inr h1)

theorem dget_of_mem_nodup {K V : Type} [DecidableEq K] (l : List (K × V))
    (k : K) (v : V) (hmem : (k, v) ∈ l) (hnd : (l.map Prod.fst).Nodup) :
    dget l k = some v := by
  induction l with
  | nil => simp at hmem
  | cons p r ih =>
      obtain ⟨k0, v0⟩ := p
      rw [List.map_cons, List.nodup_cons] at hnd
      rw [dget_cons]
      rcases List.mem_cons.mp hmem with h | h
      · rw [Prod.mk.injEq] at h
        obtain ⟨h1, h2⟩ := h
        subst h1
        subst h2
        simp
      · by_cases h0 : k0 = k
        · subst h0
          exact absurd (List.mem_map.mpr ⟨(k0, v), h, rfl⟩) hnd.1
        · rw [if_neg h0]
          exact ih h hnd.2

theorem foldl_preserve {α β : Type} (P : β → Prop) (f : β → α → β)
    (l : List α) (b : β) (hb : P b) (hf : ∀ b a, P b → P (f b a)) :
    P (l.foldl f b) := by
  induction l generalizing b with
  | nil => exact hb
  | cons x r ih => exact ih (f b x) (hf b x hb)

theorem add_transition_start_some (m : FST) (s1 : PyState) (insym : Symb)
    (s2opt : Option PyState) (outsymopt : Option Symb) (w : Int) (acc : Bool)
    (x : PyState) (h : m.start_state = some x) :
    ((m.add_transition s1 insym s2opt outsymopt w acc).1).start_state
      = some x := by
  unfold FST.add_transition
  rw [if_neg (by rw [h]; exact fun hh => Option.noConfusion hh)]
  dsimp only
  split <;> exact h

/-- C9: the start state of every composed transducer is the literal pair
(0, 0) assigned by `compose_fst`, independent of the operands' own start
states. -/
theorem C9_compose_start_literal (ma mb : FST) :
    (FST.compose_fst ma mb).1.start_state
      = some (PyState.pair (PyState.int 0) (PyState.int 0)) := by
  unfold FST.compose_fst
  dsimp only
  apply foldl_preserve
    (fun c : FST => c.start_state
      = some (PyState.pair (PyState.int 0) (PyState.int 0)))
  · rfl
  · intro c entry hc
    apply foldl_preserve
      (fun c : FST => c.start_state
        = some (PyState.pair (PyState.int 0) (PyState.int 0)))
    · exact hc
    · intro c1 trip1 hc1
      apply foldl_preserve
        (fun c : FST => c.start_state
          = some (PyState.pair (PyState.int 0) (PyState.int 0)))
      · exact hc1
      · intro c2 entry2 hc2
        split
        · apply foldl_preserve
            (fun c : FST => c.start_state
              = some (PyState.pair (PyState.int 0) (PyState.int 0)))
          · exact hc2
          · intro c3 trip2 hc3
            exact add_transition_start_some _ _ _ _ _ _ _ _ hc3
        · exact hc2

/-- C10: on the empty input string, `FST.transduce` raises IndexError for
every transducer, and so does `FSA.recognize` on a non-deterministic
automaton (both index the first symbol before checking the length), while
`FSA.recognize` on a deterministic automaton returns true exactly when the
start state is accepting. -/
theorem C10_empty_string_behaviour (T : FST) (A B : FSA) (st : Nat)
    (f1 f2 f3 : Nat) :
    T.transduce [] f1 = .indexError ∧
    (A.is_deterministic = false → A.recognize [] f2 = .indexError) ∧
    (B.is_deterministic = true → B.start_state = some st →
      B.recognize [] f3 = .ok (decide (st ∈ B.accepting))) := by
  refine ⟨rfl, ?_, ?_⟩
  · intro h
    simp [FSA.recognize, h, FSA.rnfa]
  · intro hd hs
    simp [FSA.recognize, hd, FSA.rdfa, hs]

theorem C10_witness :
    nfa1.is_deterministic = false ∧
    (build_trie [[]]).is_deterministic = true ∧
    (build_trie [[]]).start_state = some 0 ∧
    FST.init.transduce [] 5 = .indexError ∧
    nfa1.recognize [] 5 = .indexError ∧
    (build_trie [[]]).recognize [] 5
      = .ok (decide (0 ∈ (build_trie [[]]).accepting)) :=
  ⟨by decide, by decide, by decide,
   (C10_empty_string_behaviour FST.init nfa1 (build_trie [[]]) 0 5 5 5).1,
   (C10_empty_string_behaviour FST.init nfa1 (build_trie [[]]) 0 5 5 5).2.1
     (by decide),
   (C10_empty_string_behaviour FST.init nfa1 (build_trie [[]]) 0 5 5 5).2.2
     (by decide) (by decide)⟩

/-- C1: evaluation of the code at the failing input.  The trie of the
one-word lexicon containing only the empty word recognizes the empty
string, but after `minimize()` the accepting set is empty (the merge loop
marks blocks accepting only when they are targets of re-added transitions,
and the start state has none), so the same query is rejected: minimization
does not preserve the recognized language. -/
theorem C1_minimize_drops_empty_word :
    (build_trie [[]]).recognize [] 9 = .ok true ∧
    (build_trie [[]]).minimize 9 = MinResult.ok
      { transitions := [], start_state := some 0, accepting := [],
        is_deterministic := true, _alphabet := [], _states := [] } ∧
    FSA.recognize
      { transitions := [], start_state := some 0, accepting := [],
        is_deterministic := true, _alphabet := [], _states := [] } [] 9
      = .ok false := by decide

/-- C2: on the concrete operands of fst.py's `__main__`, `compose_fst`
produces exactly the seven expected transitions (all of weight 0) and the
accepting set `{(2, 0)}`, and nothing else. -/
theorem C2_compose_concrete :
    (∀ e ∈ flatE (FST.compose_fst m1 m2).1, e ∈ expectedC2) ∧
    (∀ e ∈ expectedC2, e ∈ flatE (FST.compose_fst m1 m2).1) ∧
    (FST.compose_fst m1 m2).1.accepting
      = [PyState.pair (PyState.int 2) (PyState.int 0)] := by decide

/-- C3, counterexample to the claim as stated: `minimize` on a
non-deterministic automaton returns an ordinary result (no
InvalidOperationError exists anywhere in the code), and `compose_fst` with
an epsilon-input `m1` likewise returns a composed transducer. -/
theorem C3_counterexample_no_error :
    nfa1.is_deterministic = false ∧
    (nfa1.minimize 9).isOk = true ∧
    hasEpsInput m1eps = true ∧
    (FST.compose_fst m1eps m2eps).1.accepting = [] ∧
    (FST.compose_fst m1eps m2eps).1.start_state
      = some (PyState.pair (PyState.int 0) (PyState.int 0)) := by decide

/-- C3, amended: neither operation validates its precondition.  On a
non-deterministic automaton `minimize` silently follows one target per
(state, symbol) pair and returns a minimized automaton; `compose_fst` with
an epsilon-input `m1` silently returns a composed transducer (and the
mutated `m1`); no exception is raised. -/
theorem C3_amended_silent_results :
    nfa1.is_deterministic = false ∧
    nfa1.minimize 9 = MinResult.ok
      { transitions := [((0, 'a'), [2])], start_state := some 0,
        accepting := [2], is_deterministic := true, _alphabet := ['a'],
        _states := [0, 2] } ∧
    hasEpsInput m1eps = true ∧
    (FST.compose_fst m1eps m2eps).1 =
      { transitions := [],
        start_state := some (PyState.pair (PyState.int 0) (PyState.int 0)),
        accepting := [], _sigma_in := [], _sigma_out := [],
        _states := [PyState.pair (PyState.int 0) (PyState.int 0)] } := by decide

/-- C7, counterexample to the claim as stated: `compose_fst` MUTATES its
first operand — after the call, `m1`'s transition dictionary has gained
epsilon self-loops and is no longer equal to what it was before. -/
theorem C7_counterexample_m1_mutated :
    (FST.compose_fst m1c FST.init).2.transitions ≠ m1c.transitions := by decide

theorem add_transition_trans_some (m : FST) (s1 : PyState) (insym : Symb)
    (s2 : PyState) (outsymopt : Option Symb) (w : Int) (acc : Bool) :
    ((m.add_transition s1 insym (some s2) outsymopt w acc).1).transitions
      = dAddToSet m.transitions (s1, insym)
          ((match outsymopt with | some o => o | none => insym), s2, w) := by
  unfold FST.add_transition
  dsimp only
  split <;> split <;> rfl

theorem lkup_add_mono (m : FST) (s1 : PyState) (insym : Symb) (s2 : PyState)
    (outsymopt : Option Symb) (w : Int) (acc : Bool)
    (k : PyState × Symb) (x : Symb × PyState × Int) (h : x ∈ lkup m k) :
    x ∈ lkup ((m.add_transition s1 insym (some s2) outsymopt w acc).1) k := by
  unfold lkup at h ⊢
  rw [add_transition_trans_some, dget_dAddToSet]
  by_cases hk : k = (s1, insym)
  · subst hk
    rw [if_pos rfl]
    exact (mem_addToSet _ _ _).mpr (Or.inl h)
  · rw [if_neg hk]
    exact h

theorem lkup_add_self_loop (m : FST) (st : PyState) :
    ((none : Symb), st, (0 : Int))
      ∈ lkup ((m.add_transition st none (some st) none 0 false).1) (st, none) := by
  unfold lkup
  rw [add_transition_trans_some, dget_dAddToSet, if_pos rfl]
  exact (mem_addToSet _ _ _).mpr (Or.inr rfl)

theorem foldLoops_mono (l : List PyState) (m0 : FST) (k : PyState × Symb)
    (x : Symb × PyState × Int) (h : x ∈ lkup m0 k) :
    x ∈ lkup (l.foldl
      (fun m' st => (m'.add_transition st none (some st) none 0 false).1) m0) k :=
  foldl_preserve (fun m' => x ∈ lkup m' k) _ l m0 h
    (fun m' st hm => lkup_add_mono m' st none st none 0 false k x hm)

theorem foldLoops_self (l : List PyState) (m0 : FST) (st : PyState)
    (h : st ∈ l) :
    ((none : Symb), st, (0 : Int)) ∈ lkup (l.foldl
      (fun m' st => (m'.add_transition st none (some st) none 0 false).1) m0)
      (st, none) := by
  induction l generalizing m0 with
  | nil => simp at h
  | cons x r ih =>
      rcases List.mem_cons.mp h with h1 | h1
      · subst h1
        exact foldLoops_mono r _ _ _ (lkup_add_self_loop m0 st)
      · exact ih _ h1

/-- C7, amended: `compose_fst` reads `m2` without touching it, but mutates
`m1`: every state in `m1._states` gains an epsilon self-loop transition
(label epsilon:epsilon, weight 0), while every transition `m1` had before
the call is preserved. -/
theorem C7_amended_eps_loops (ma mb : FST) :
    (∀ (k : PyState × Symb) (x : Symb × PyState × Int),
      x ∈ lkup ma k → x ∈ lkup (FST.compose_fst ma mb).2 k) ∧
    (∀ st ∈ ma._states,
      ((none : Symb), st, (0 : Int))
        ∈ lkup (FST.compose_fst ma mb).2 (st, none)) := by
  constructor
  · intro k x h
    exact foldLoops_mono ma._states ma k x h
  · intro st hst
    exact foldLoops_self ma._states ma st hst

theorem C7_amended_witness :
    ((some 'a' : Symb), PyState.int 0, (0 : Int)) ∈ lkup m1c (.int 0, some 'a') ∧
    ((some 'a' : Symb), PyState.int 0, (0 : Int))
      ∈ lkup (FST.compose_fst m1c FST.init).2 (.int 0, some 'a') ∧
    ((none : Symb), PyState.int 0, (0 : Int))
      ∈ lkup (FST.compose_fst m1c FST.init).2 (.int 0, none) :=
  ⟨by decide,
   (C7_amended_eps_loops m1c FST.init).1 (.int 0, some 'a') _ (by decide),
   (C7_amended_eps_loops m1c FST.init).2 (.int 0) (by decide)⟩

theorem keys_dAddToSet {K V : Type} [DecidableEq K] [DecidableEq V]
    (d : List (K × List V)) (k : K) (x : V) :
    (dAddToSet d k x).map Prod.fst =
      if k ∈ d.map Prod.fst then d.map Prod.fst else d.map Prod.fst ++ [k] := by
  induction d with
  | nil => simp [dAddToSet]
  | cons p r ih =>
      obtain ⟨k0, v0⟩ := p
      by_cases h0 : k0 = k
      · subst h0
        simp [dAddToSet]
      · have h0' : ¬ k = k0 := fun hh => h0 hh.symm
        simp only [dAddToSet, if_neg h0, List.map_cons, List.mem_cons]
        rw [ih]
        by_cases h1 : k ∈ r.map Prod.fst
        · simp [h1, h0']
        · simp [h1, h0']

theorem keysNodup_add (m : FST) (s1 : PyState) (insym : Symb) (s2 : PyState)
    (outsymopt : Option Symb) (w : Int) (acc : Bool) (hnd : keysNodup m) :
    keysNodup (m.add_transition s1 insym (some s2) outsymopt w acc).1 := by
  unfold keysNodup at hnd ⊢
  rw [add_transition_trans_some, keys_dAddToSet]
  by_cases h : (s1, insym) ∈ m.transitions.map Prod.fst
  · rw [if_pos h]
    exact hnd
  · rw [if_neg h, List.nodup_append]
    refine ⟨hnd, List.nodup_singleton _, ?_⟩
    intro a ha hb
    rw [List.mem_singleton] at hb
    subst hb
    exact h ha

/-- The edge re-insertion step of `invert`, on one flattened edge
`(source, insym, outsym, target, weight)` of the original transducer:
add `source --outsym:insym--> target`. -/
def invStep (inv : FST) (e : PyState × Symb × Symb × PyState × Int) : FST :=
  (inv.add_transition e.1 e.2.2.1 (some e.2.2.2.1) (some e.2.1) e.2.2.2.2
    false).1

theorem mem_lkup_foldInv (E : List (PyState × Symb × Symb × PyState × Int))
    (inv0 : FST) (s : PyState) (y x : Symb) (t : PyState) (w : Int) :
    (x, t, w) ∈ lkup (E.foldl invStep inv0) (s, y) ↔
      (x, t, w) ∈ lkup inv0 (s, y) ∨ (s, x, y, t, w) ∈ E := by
  induction E generalizing inv0 with
  | nil => simp
  | cons e E' ih =>
      obtain ⟨es, ei, eo, et, ew⟩ := e
      rw [List.foldl_cons, ih]
      have hstep : (x, t, w) ∈ lkup (invStep inv0 (es, ei, eo, et, ew)) (s, y) ↔
          (x, t, w) ∈ lkup inv0 (s, y) ∨
            ((s, y) = (es, eo) ∧ (x, t, w) = (ei, et, ew)) := by
        unfold invStep lkup
        rw [add_transition_trans_some, dget_dAddToSet]
        by_cases hk : (s, y) = (es, eo)
        · rw [if_pos hk]
          simp only [Prod.mk.injEq] at hk
          obtain ⟨h1, h2⟩ := hk
          subst h1
          subst h2
          simp only [Option.getD_some]
          rw [mem_addToSet]
          constructor
          · rintro (h | h)
            · exact Or.inl h
            · exact Or.inr ⟨by trivial, h⟩
          · rintro (h | ⟨-, h⟩)
            · exact Or.inl h
            · exact Or.inr h
        · rw [if_neg hk]
          constructor
          · exact Or.inl
          · rintro (h | ⟨hc, -⟩)
            · exact h
            · exact absurd hc hk
      rw [hstep]
      constructor
      · rintro ((h | ⟨h1, h2⟩) | h)
        · exact Or.inl h
        · simp only [Prod.mk.injEq] at h1 h2
          obtain ⟨hs, hy⟩ := h1
          obtain ⟨hx, ht, hw⟩ := h2
          subst hs; subst hy; subst hx; subst ht; subst hw
          exact Or.inr (List.mem_cons_self _ _)
        · exact Or.inr (List.mem_cons_of_mem _ h)
      · rintro (h | h)
        · exact Or.inl (Or.inl h)
        · rcases List.mem_cons.mp h with h1 | h1
          · simp only [Prod.mk.injEq] at h1
            obtain ⟨hs, hx, hy, ht, hw⟩ := h1
            subst hs; subst hx; subst hy; subst ht; subst hw
            exact Or.inl (Or.inr ⟨rfl, rfl⟩)
          · exact Or.inr h1

theorem foldl_flatMap {α β γ : Type} (h : α → List β) (g : γ → β → γ)
    (l : List α) (b : γ) :
    (l.flatMap h).foldl g b = l.foldl (fun b a => (h a).foldl g b) b := by
  induction l generalizing b with
  | nil => rfl
  | cons a r ih =>
      rw [List.flatMap_cons, List.foldl_append, List.foldl_cons, ih]

theorem get_transitions_of_mem (m : FST)
    (entry : (PyState × Symb) × List (Symb × PyState × Int))
    (hmem : entry ∈ m.transitions) (hnd : keysNodup m) :
    m.get_transitions entry.1.1 (some entry.1.2)
      = entry.2.map (fun t => (t.2.1, t.1, t.2.2)) := by
  obtain ⟨⟨s1, isym⟩, v⟩ := entry
  unfold FST.get_transitions
  have hd : dget m.transitions (s1, isym) = some v :=
    dget_of_mem_nodup _ _ _ hmem hnd
  simp [hd]

theorem invert_fold_flat (m : FST) (hnd : keysNodup m) :
    ∀ (L : List ((PyState × Symb) × List (Symb × PyState × Int))) (inv0 : FST),
      (∀ e ∈ L, e ∈ m.transitions) →
      L.foldl (fun inv entry =>
        (m.get_transitions entry.1.1 (some entry.1.2)).foldl (fun inv trip =>
          (inv.add_transition entry.1.1 trip.2.1 (some trip.1) (some entry.1.2)
            trip.2.2 false).1) inv) inv0
      = (L.flatMap (fun e =>
          e.2.map (fun t => (e.1.1, e.1.2, t.1, t.2.1, t.2.2)))).foldl
          invStep inv0 := by
  intro L
  induction L with
  | nil =>
      intro inv0 _
      rfl
  | cons e L' ih =>
      intro inv0 hmem
      rw [List.foldl_cons, List.flatMap_cons, List.foldl_append]
      rw [get_transitions_of_mem m e (hmem e (List.mem_cons_self _ _)) hnd]
      rw [List.foldl_map, List.foldl_map]
      exact ih _ (fun x hx => hmem x (List.mem_cons_of_mem _ hx))

theorem invert_trans_eq (m : FST) (hnd : keysNodup m) :
    (m.invert).transitions = ((flatE m).foldl invStep FST.init).transitions := by
  unfold FST.invert flatE
  dsimp only
  rw [invert_fold_flat m hnd m.transitions FST.init (fun e he => he)]

theorem mem_lkup_invert (m : FST) (hnd : keysNodup m) (s : PyState)
    (y x : Symb) (t : PyState) (w : Int) :
    (x, t, w) ∈ lkup (m.invert) (s, y) ↔ (s, x, y, t, w) ∈ flatE m := by
  unfold lkup
  rw [invert_trans_eq m hnd]
  have := mem_lkup_foldInv (flatE m) FST.init s y x t w
  unfold lkup at this
  rw [this]
  have hinit : dget FST.init.transitions (s, y) = none := rfl
  rw [hinit]
  simp

theorem mem_flatE_iff (M : FST) (hnd : keysNodup M) (s : PyState) (i o : Symb)
    (t : PyState) (w : Int) :
    (s, i, o, t, w) ∈ flatE M ↔ (o, t, w) ∈ lkup M (s, i) := by
  unfold flatE lkup
  rw [List.mem_flatMap]
  constructor
  · rintro ⟨e, he, hmem⟩
    rw [List.mem_map] at hmem
    obtain ⟨tt, htt, heq⟩ := hmem
    simp only [Prod.mk.injEq] at heq
    obtain ⟨h1, h2, h3, h4, h5⟩ := heq
    subst h1
    subst h2
    subst h3
    subst h4
    subst h5
    have hd : dget M.transitions (e.1.1, e.1.2) = some e.2 := by
      have he' : (e.1, e.2) ∈ M.transitions := by
        cases e
        exact he
      have := dget_of_mem_nodup M.transitions e.1 e.2 he' hnd
      cases hf : e.1
      rw [hf] at this
      exact this
    rw [hd]
    simpa using htt
  · intro h
    cases hd : dget M.transitions (s, i) with
    | none =>
        rw [hd] at h
        simp at h
    | some v =>
        rw [hd] at h
        simp only [Option.getD_some] at h
        refine ⟨((s, i), v), dget_mem _ _ _ hd, ?_⟩
        exact List.mem_map.mpr ⟨(o, t, w), h, rfl⟩

theorem keysNodup_invert (m : FST) : keysNodup (m.invert) := by
  unfold keysNodup FST.invert
  dsimp only
  apply foldl_preserve (fun inv : FST => (inv.transitions.map Prod.fst).Nodup)
  · exact List.nodup_nil
  · intro inv entry h
    apply foldl_preserve (fun inv : FST => (inv.transitions.map Prod.fst).Nodup)
    · exact h
    · intro inv' trip h'
      exact keysNodup_add inv' _ _ _ _ _ _ h'

/-- C5: inverting twice yields a transducer structurally equal to the
original — every (input symbol, output symbol, target, weight) transition
of the double inverse is a transition of the original and vice versa, and
the start state and accepting set are unchanged.  The hypothesis states
that the transition dictionary has unique keys, which every Python dict
has by construction. -/
theorem C5_invert_involution (m : FST) (hnd : keysNodup m) :
    (∀ (s : PyState) (i o : Symb) (t : PyState) (w : Int),
      ((o, t, w) ∈ lkup (m.invert.invert) (s, i) ↔ (o, t, w) ∈ lkup m (s, i))) ∧
    m.invert.invert.start_state = m.start_state ∧
    m.invert.invert.accepting = m.accepting := by
  refine ⟨?_, rfl, rfl⟩
  intro s i o t w
  rw [mem_lkup_invert (m.invert) (keysNodup_invert m) s i o t w,
      mem_flatE_iff (m.invert) (keysNodup_invert m) s o i t w,
      mem_lkup_invert m hnd s o i t w,
      mem_flatE_iff m hnd s i o t w]

theorem C5_witness :
    keysNodup aExample ∧
    ((some 'f' : Symb), PyState.int 0, (5 : Int))
      ∈ lkup (aExample.invert.invert) (PyState.int 0, some 'a') :=
  ⟨by unfold keysNodup; decide,
   ((C5_invert_involution aExample (by unfold keysNodup; decide)).1
     (PyState.int 0) (some 'a') (some 'f') (PyState.int 0) 5).mpr (by decide)⟩

theorem bump_range (n f : Nat) : bump (List.range n) n (f + 1) = n := by
  unfold bump
  rw [if_neg (by simp)]

theorem addToSet_of_mem {α : Type} [DecidableEq α] (l : List α) (x : α)
    (h : x ∈ l) : addToSet l x = l := by
  unfold addToSet
  rw [if_pos h]

theorem addToSet_of_not_mem {α : Type} [DecidableEq α] (l : List α) (x : α)
    (h : x ∉ l) : addToSet l x = l ++ [x] := by
  unfold addToSet
  rw [if_neg h]

theorem dAddToSet_fresh {K V : Type} [DecidableEq K] [DecidableEq V]
    (d : List (K × List V)) (k : K) (x : V) (h : dget d k = none) :
    dAddToSet d k x = d ++ [(k, [x])] := by
  induction d with
  | nil => rfl
  | cons p r ih =>
      obtain ⟨k0, v0⟩ := p
      rw [dget_cons] at h
      by_cases h0 : k0 = k
      · rw [if_pos h0] at h
        exact absurd h (by simp)
      · rw [if_neg h0] at h
        simp only [dAddToSet, if_neg h0, List.cons_append]
        rw [ih h]

theorem dget_append_single {K V : Type} [DecidableEq K] (d : List (K × V))
    (k1 : K) (v1 : V) (k : K) :
    dget (d ++ [(k1, v1)]) k =
      match dget d k with
      | some v => some v
      | none => if k1 = k then some v1 else none := by
  induction d with
  | nil => rfl
  | cons p r ih =>
      obtain ⟨k0, v0⟩ := p
      rw [List.cons_append, dget_cons, dget_cons]
      by_cases h0 : k0 = k
      · rw [if_pos h0, if_pos h0]
      · rw [if_neg h0, if_neg h0, ih]

theorem follow_append (A : FSA) (u v : List Char) :
    ∀ q, follow A q (u ++ v) = (follow A q u).bind (fun q' => follow A q' v) := by
  induction u with
  | nil =>
      intro q
      simp [follow]
  | cons c cs ih =>
      intro q
      rw [List.cons_append]
      show (match dget A.transitions (q, c) with
        | some (t :: _) => follow A t (cs ++ v)
        | _ => none) = _
      cases hd : dget A.transitions (q, c) with
      | none => simp [follow, hd]
      | some l =>
          cases l with
          | nil => simp [follow, hd]
          | cons t r =>
              simp only [follow, hd]
              exact ih t

theorem follow_lt (A : FSA) (n : Nat) (hInv : TrieInv A n) :
    ∀ (u : List Char) (q0 q : Nat), q0 < n → follow A q0 u = some q → q < n := by
  intro u
  induction u with
  | nil =>
      intro q0 q h0 hf
      injection hf with hf
      exact hf ▸ h0
  | cons c cs ih =>
      intro q0 q h0 hf
      rw [follow] at hf
      cases hd : dget A.transitions (q0, c) with
      | none => rw [hd] at hf; exact absurd hf (by simp)
      | some l =>
          rw [hd] at hf
          cases l with
          | nil => exact absurd hf (by simp)
          | cons t r =>
              obtain ⟨-, t', ht', htlt⟩ := hInv.keys _ (dget_mem _ _ _ hd)
              injection ht' with h1 h2
              exact ih t q (by rw [h1]; exact htlt) hf

theorem rdfa_follow (A : FSA)
    (hk : ∀ p ∈ A.transitions, ∃ t, p.2 = [t]) :
    ∀ (u : List Char) (q : Nat),
      A.rdfa (some q) u =
        .ok (match follow A q u with
             | some qf => decide (qf ∈ A.accepting)
             | none => false) := by
  intro u
  induction u with
  | nil =>
      intro q
      rfl
  | cons c cs ih =>
      intro q
      show (match dget A.transitions (q, c) with
            | none => RecogResult.ok false
            | some [] => RecogResult.stopIteration
            | some (t :: _) => A.rdfa (some t) cs) = _
      cases hd : dget A.transitions (q, c) with
      | none => simp [follow, hd]
      | some l =>
          cases l with
          | nil =>
              obtain ⟨t, ht⟩ := hk _ (dget_mem _ _ _ hd)
              exact absurd ht (by simp)
          | cons t r =>
              simp only [follow, hd]
              exact ih t

theorem add_fresh_spec (A : FSA) (n cur : Nat) (c : Char)
    (hstates : A._states = List.range n) (hstart : A.start_state = some 0)
    (hnone : dget A.transitions (cur, c) = none) (hcur : cur < n) :
    (A.add_transition cur c none false).2 = n ∧
    ((A.add_transition cur c none false).1).transitions
      = A.transitions ++ [((cur, c), [n])] ∧
    ((A.add_transition cur c none false).1).start_state = some 0 ∧
    ((A.add_transition cur c none false).1).accepting = A.accepting ∧
    ((A.add_transition cur c none false).1).is_deterministic
      = A.is_deterministic ∧
    ((A.add_transition cur c none false).1)._states = List.range (n + 1) := by
  have hnn : ¬ A.start_state = none := by
    rw [hstart]
    exact fun h => Option.noConfusion h
  have hlen : A._states.length = n := by rw [hstates]; exact List.length_range n
  have hs2 : bump A._states A._states.length (A._states.length + 1) = n := by
    rw [hstates, List.length_range]
    exact bump_range n n
  have htrans : dAddToSet A.transitions (cur, c) n
      = A.transitions ++ [((cur, c), [n])] := dAddToSet_fresh _ _ _ hnone
  have hdet2 : dget (A.transitions ++ [((cur, c), [n])]) (cur, c)
      = some [n] := by
    rw [dget_append_single, hnone]
    simp
  have hstates1 : addToSet (addToSet A._states cur) n = List.range (n + 1) := by
    rw [hstates, addToSet_of_mem _ _ (List.mem_range.mpr hcur),
        addToSet_of_not_mem _ _ (by simp), List.range_succ]
  unfold FSA.add_transition
  rw [if_neg hnn]
  dsimp only
  rw [hs2, htrans, hstates1]
  simp [hstart, hdet2]

theorem follow_ext_old (A A' : FSA) (cur : Nat) (c : Char) (n : Nat)
    (hT : A'.transitions = A.transitions ++ [((cur, c), [n])]) :
    ∀ (u : List Char) (q0 q : Nat),
      follow A q0 u = some q → follow A' q0 u = some q := by
  intro u
  induction u with
  | nil =>
      intro q0 q h
      exact h
  | cons d cs ih =>
      intro q0 q h
      simp only [follow] at h ⊢
      cases hd : dget A.transitions (q0, d) with
      | none =>
          rw [hd] at h
          exact absurd h (by simp)
      | some l =>
          rw [hd] at h
          cases l with
          | nil => exact absurd h (by simp)
          | cons t r =>
              have hd' : dget A'.transitions (q0, d) = some (t :: r) := by
                rw [hT, dget_append_single, hd]
              rw [hd']
              exact ih t q h

theorem follow_ext_split (A A' : FSA) (cur : Nat) (c : Char) (n : Nat)
    (hT : A'.transitions = A.transitions ++ [((cur, c), [n])])
    (hkeys : ∀ p ∈ A.transitions, p.1.1 < n ∧ ∃ t, p.2 = [t] ∧ t < n)
    (hcur : cur < n) :
    ∀ (u : List Char) (q0 q : Nat), q0 < n → follow A' q0 u = some q →
      follow A q0 u = some q ∨
        ∃ u1, u = u1 ++ [c] ∧ follow A q0 u1 = some cur ∧ q = n := by
  have hfromn : ∀ d : Char, dget A'.transitions (n, d) = none := by
    intro d
    rw [hT, dget_append_single]
    cases hd : dget A.transitions (n, d) with
    | some v =>
        have := (hkeys _ (dget_mem _ _ _ hd)).1
        dsimp only at this
        omega
    | none =>
        rw [if_neg ?_]
        intro hh
        simp only [Prod.mk.injEq] at hh
        omega
  intro u
  induction u with
  | nil =>
      intro q0 q h0 h
      exact Or.inl h
  | cons d cs ih =>
      intro q0 q h0 h
      simp only [follow] at h
      cases hdA : dget A.transitions (q0, d) with
      | some l =>
          have hd' : dget A'.transitions (q0, d) = some l := by
            rw [hT, dget_append_single, hdA]
          rw [hd'] at h
          cases l with
          | nil => exact absurd h (by simp)
          | cons t r =>
              have htlt : t < n := by
                obtain ⟨-, t', ht', hlt⟩ := hkeys _ (dget_mem _ _ _ hdA)
                injection ht' with h1 h2
                rw [h1]
                exact hlt
              rcases ih t q htlt h with hold | ⟨u1, hu1, hfu, hq⟩
              · left
                simp only [follow, hdA]
                exact hold
              · right
                refine ⟨d :: u1, by rw [hu1]; rfl, ?_, hq⟩
                simp only [follow, hdA]
                exact hfu
      | none =>
          by_cases hqd : (q0, d) = (cur, c)
          · have hd' : dget A'.transitions (q0, d) = some [n] := by
              rw [hT, dget_append_single, hdA, if_pos hqd.symm]
            rw [hd'] at h
            have hcsq : cs = [] ∧ q = n := by
              cases cs with
              | nil =>
                  injection h with h
                  exact ⟨rfl, h.symm⟩
              | cons d' cs' =>
                  simp only [follow, hfromn d'] at h
                  exact absurd h (by simp)
            obtain ⟨hcs, hq⟩ := hcsq
            subst hcs
            simp only [Prod.mk.injEq] at hqd
            obtain ⟨hq0, hd2⟩ := hqd
            right
            refine ⟨[], by rw [hd2]; simp, ?_, hq⟩
            rw [hq0]
            rfl
          · have hd' : dget A'.transitions (q0, d) = none := by
              rw [hT, dget_append_single, hdA]
              rw [if_neg (fun hh => hqd hh.symm)]
            rw [hd'] at h
            exact absurd h (by simp)

theorem stepChar_existing (A : FSA) (cur : Nat) (c : Char) (t : Nat)
    (hs : dget A.transitions (cur, c) = some [t]) :
    stepChar A cur c = (A, t) := by
  unfold stepChar
  rw [hs]
  rfl

theorem stepChar_fresh (A : FSA) (cur : Nat) (c : Char)
    (hnone : dget A.transitions (cur, c) = none) :
    stepChar A cur c = A.add_transition cur c none false := by
  unfold stepChar
  rw [hnone]
  rfl

theorem followAcc_ext (A A' : FSA) (cur : Nat) (c : Char) (n : Nat)
    (hInv : TrieInv A n)
    (hT : A'.transitions = A.transitions ++ [((cur, c), [n])])
    (hacc : A'.accepting = A.accepting)
    (hcur : cur < n) :
    ∀ u, followAcc A' u = followAcc A u := by
  intro u
  unfold followAcc
  cases hf : follow A 0 u with
  | some q =>
      rw [follow_ext_old A A' cur c n hT u 0 q hf, hacc]
  | none =>
      cases hf' : follow A' 0 u with
      | none => rfl
      | some q =>
          rcases follow_ext_split A A' cur c n hT hInv.keys hcur u 0 q
              hInv.npos hf' with hold | ⟨u1, hu1, hfu, hq⟩
          · rw [hold] at hf
            exact absurd hf (by simp)
          · subst hq
            have hnmem : q ∉ A'.accepting := by
              rw [hacc]
              intro hmem
              have := hInv.acc_lt _ hmem
              omega
            simp [hnmem]

theorem insertChars_spec (cs : List Char) :
    ∀ (A : FSA) (n cur : Nat) (done : List Char),
      TrieInv A n → follow A 0 done = some cur →
      ∃ n', n ≤ n' ∧
        TrieInv (insertChars A cur cs).1 n' ∧
        (insertChars A cur cs).1.accepting = A.accepting ∧
        follow (insertChars A cur cs).1 0 (done ++ cs)
          = some (insertChars A cur cs).2 ∧
        (∀ u, followAcc (insertChars A cur cs).1 u = followAcc A u) := by
  induction cs with
  | nil =>
      intro A n cur done hInv hf
      refine ⟨n, Nat.le_refl n, hInv, rfl, ?_, fun u => rfl⟩
      rw [List.append_nil]
      exact hf
  | cons c cs' ih =>
      intro A n cur done hInv hf
      have hcur : cur < n := follow_lt A n hInv done 0 cur hInv.npos hf
      cases hd : dget A.transitions (cur, c) with
      | some l =>
          obtain ⟨-, t, ht, htlt⟩ := hInv.keys _ (dget_mem _ _ _ hd)
          dsimp only at ht
          subst ht
          have hrec : insertChars A cur (c :: cs') = insertChars A t cs' := by
            show (let r := stepChar A cur c; insertChars r.1 r.2 cs') = _
            rw [stepChar_existing A cur c t hd]
          have hf' : follow A 0 (done ++ [c]) = some t := by
            rw [follow_append, hf]
            show follow A cur [c] = some t
            simp only [follow, hd]
          obtain ⟨n', hle, hInv', hacc', hfol', hfa'⟩ :=
            ih A n t (done ++ [c]) hInv hf'
          refine ⟨n', hle, ?_, ?_, ?_, ?_⟩
          · rw [hrec]
            exact hInv'
          · rw [hrec]
            exact hacc'
          · rw [hrec, show done ++ c :: cs' = (done ++ [c]) ++ cs' by simp]
            exact hfol'
          · intro u
            rw [hrec]
            exact hfa' u
      | none =>
          obtain ⟨hsnd, htr, hst, hac, hdt, hss⟩ :=
            add_fresh_spec A n cur c hInv.states_eq hInv.start_eq hd hcur
          have hInv1 : TrieInv (A.add_transition cur c none false).1 (n + 1) := by
            constructor
            · exact hst
            · rw [hdt, hInv.det]
            · exact hss
            · omega
            · intro p hp
              rw [htr] at hp
              rcases List.mem_append.mp hp with hp | hp
              · obtain ⟨h1, t', ht', hlt⟩ := hInv.keys p hp
                exact ⟨by omega, t', ht', by omega⟩
              · rw [List.mem_singleton] at hp
                subst hp
                exact ⟨by dsimp only; omega, n, rfl, by omega⟩
            · rw [htr, List.map_append, List.nodup_append]
              refine ⟨hInv.keys_nodup, by simp, ?_⟩
              intro a ha hb
              simp only [List.map_cons, List.map_nil, List.mem_singleton] at hb
              subst hb
              exact absurd ha ((dget_eq_none_iff _ _).mp hd)
            · intro a ha
              rw [hac] at ha
              have := hInv.acc_lt a ha
              omega
            · intro u v q hu hv
              rcases follow_ext_split A _ cur c n htr hInv.keys hcur u 0 q
                  hInv.npos hu with hu' | ⟨u1, huu, hfu, hq⟩
              · rcases follow_ext_split A _ cur c n htr hInv.keys hcur v 0 q
                    hInv.npos hv with hv' | ⟨v1, hvv, hfv, hq'⟩
                · exact hInv.inj u v q hu' hv'
                · have := follow_lt A n hInv u 0 q hInv.npos hu'
                  omega
              · rcases follow_ext_split A _ cur c n htr hInv.keys hcur v 0 q
                    hInv.npos hv with hv' | ⟨v1, hvv, hfv, hq'⟩
                · have := follow_lt A n hInv v 0 q hInv.npos hv'
                  omega
                · rw [huu, hvv, hInv.inj u1 v1 cur hfu hfv]
          have hf1 : follow (A.add_transition cur c none false).1 0
              (done ++ [c]) = some n := by
            have h1 : follow (A.add_transition cur c none false).1 0 done
                = some cur := follow_ext_old A _ cur c n htr done 0 cur hf
            rw [follow_append, h1]
            show follow (A.add_transition cur c none false).1 cur [c] = some n
            have hdg : dget ((A.add_transition cur c none false).1).transitions
                (cur, c) = some [n] := by
              rw [htr, dget_append_single, hd]
              simp
            simp only [follow, hdg]
          have hpair : stepChar A cur c
              = ((A.add_transition cur c none false).1, n) := by
            rw [stepChar_fresh A cur c hd]
            exact Prod.ext rfl hsnd
          have hrec : insertChars A cur (c :: cs')
              = insertChars (A.add_transition cur c none false).1 n cs' := by
            show (let r := stepChar A cur c; insertChars r.1 r.2 cs') = _
            rw [hpair]
          obtain ⟨n', hle, hInv', hacc', hfol', hfa'⟩ :=
            ih (A.add_transition cur c none false).1 (n + 1) n (done ++ [c])
              hInv1 hf1
          refine ⟨n', by omega, ?_, ?_, ?_, ?_⟩
          · rw [hrec]
            exact hInv'
          · rw [hrec, hacc', hac]
          · rw [hrec, show done ++ c :: cs' = (done ++ [c]) ++ cs' by simp]
            exact hfol'
          · intro u
            rw [hrec, hfa' u]
            exact followAcc_ext A _ cur c n hInv htr hac hcur u

theorem follow_acc_update (X : FSA) (l : List Nat) :
    ∀ (u : List Char) (q : Nat),
      follow { X with accepting := l } q u = follow X q u := by
  intro u
  induction u with
  | nil => intro q; rfl
  | cons c cs ih =>
      intro q
      show (match dget X.transitions (q, c) with
            | some (t :: _) => follow { X with accepting := l } t cs
            | _ => none)
          = (match dget X.transitions (q, c) with
            | some (t :: _) => follow X t cs
            | _ => none)
      cases hd : dget X.transitions (q, c) with
      | none => rfl
      | some ll =>
          cases ll with
          | nil => rfl
          | cons t r => exact ih t

theorem followAcc_eq_some (X : FSA) (q : Nat) (u : List Char)
    (h : follow X 0 u = some q) :
    followAcc X u = decide (q ∈ X.accepting) := by
  unfold followAcc
  rw [h]

theorem followAcc_eq_none (X : FSA) (u : List Char)
    (h : follow X 0 u = none) : followAcc X u = false := by
  unfold followAcc
  rw [h]

theorem insertWord_spec (A : FSA) (n : Nat) (w : List Char)
    (hInv : TrieInv A n) :
    ∃ n', TrieInv (insertWord A w) n' ∧
      ∀ u, followAcc (insertWord A w) u
        = (followAcc A u || decide (u = w)) := by
  obtain ⟨n', hle, hInv', hacc', hfol', hfa'⟩ :=
    insertChars_spec w A n 0 [] hInv rfl
  rw [List.nil_append] at hfol'
  have hw : insertWord A w
      = { (insertChars A 0 w).1 with
          accepting := addToSet (insertChars A 0 w).1.accepting
            (insertChars A 0 w).2 } := by
    unfold insertWord
    rw [hInv.start_eq]
  have hlast : (insertChars A 0 w).2 < n' :=
    follow_lt _ n' hInv' w 0 _ hInv'.npos hfol'
  refine ⟨n', ?_, ?_⟩
  · rw [hw]
    constructor
    · exact hInv'.start_eq
    · exact hInv'.det
    · exact hInv'.states_eq
    · exact hInv'.npos
    · exact hInv'.keys
    · exact hInv'.keys_nodup
    · intro a ha
      rcases (mem_addToSet _ _ _).mp ha with h | h
      · exact hInv'.acc_lt a h
      · rw [h]
        exact hlast
    · intro u v q hu hv
      rw [follow_acc_update] at hu hv
      exact hInv'.inj u v q hu hv
  · intro u
    have hfR : ∀ qq, follow (insertWord A w) 0 u = qq
        ↔ follow (insertChars A 0 w).1 0 u = qq := by
      intro qq
      rw [hw, follow_acc_update]
    have haccW : (insertWord A w).accepting
        = addToSet (insertChars A 0 w).1.accepting (insertChars A 0 w).2 := by
      rw [hw]
    cases hfu : follow (insertChars A 0 w).1 0 u with
    | none =>
        have hne : ¬ (u = w) := by
          intro he
          rw [he, hfol'] at hfu
          exact Option.noConfusion hfu
        have h2 : followAcc A u = false := by
          rw [← hfa' u]
          exact followAcc_eq_none _ u hfu
        rw [followAcc_eq_none _ u ((hfR none).mpr hfu), h2]
        simp [hne]
    | some q =>
        have h2 : followAcc A u = decide (q ∈ (insertChars A 0 w).1.accepting) := by
          rw [← hfa' u]
          exact followAcc_eq_some _ q u hfu
        have h3 : decide (u = w) = decide (q = (insertChars A 0 w).2) := by
          by_cases he : u = w
          · rw [he, hfol'] at hfu
            injection hfu with hfu
            simp [he, hfu.symm]
          · have : ¬ (q = (insertChars A 0 w).2) := by
              intro hq
              rw [hq] at hfu
              exact he (hInv'.inj u w _ hfu hfol')
            simp [he, this]
        have h4 : decide (q ∈ addToSet (insertChars A 0 w).1.accepting
              (insertChars A 0 w).2)
            = (decide (q ∈ (insertChars A 0 w).1.accepting)
                || decide (q = (insertChars A 0 w).2)) := by
          by_cases h5 : q ∈ (insertChars A 0 w).1.accepting <;>
            by_cases h6 : q = (insertChars A 0 w).2 <;>
            simp [mem_addToSet, h5, h6]
        rw [followAcc_eq_some _ q u ((hfR (some q)).mpr hfu), haccW, h4, h2, h3]

theorem fold_insert_spec (W : List (List Char)) :
    ∀ (A : FSA) (n : Nat), TrieInv A n →
      ∃ n', TrieInv (W.foldl insertWord A) n' ∧
        ∀ u, followAcc (W.foldl insertWord A) u
          = (followAcc A u || decide (u ∈ W)) := by
  induction W with
  | nil =>
      intro A n hInv
      exact ⟨n, hInv, fun u => by simp⟩
  | cons w W' ih =>
      intro A n hInv
      obtain ⟨n1, hInv1, hfa1⟩ := insertWord_spec A n w hInv
      obtain ⟨n', hInv', hfa'⟩ := ih (insertWord A w) n1 hInv1
      refine ⟨n', hInv', ?_⟩
      intro u
      rw [List.foldl_cons, hfa' u, hfa1 u]
      by_cases h1 : u = w <;> by_cases h2 : u ∈ W' <;>
        simp [List.mem_cons, h1, h2]

theorem trieInv_start : TrieInv trieStart 1 := by
  constructor
  · rfl
  · rfl
  · rfl
  · omega
  · intro p hp
    exact absurd hp (by simp [trieStart, FSA.empty])
  · exact List.nodup_nil
  · intro a ha
    exact absurd ha (by simp [trieStart, FSA.empty])
  · intro u v q hu hv
    cases u with
    | nil =>
        cases v with
        | nil => rfl
        | cons c cs =>
            exact absurd hv (by simp [follow, trieStart, FSA.empty, dget])
    | cons c cs =>
        exact absurd hu (by simp [follow, trieStart, FSA.empty, dget])

theorem build_trie_correct (W : List (List Char)) :
    ∃ n, TrieInv (build_trie W) n ∧
      ∀ u, followAcc (build_trie W) u = decide (u ∈ W) := by
  obtain ⟨n, hInv, hfa⟩ := fold_insert_spec W _ 1 trieInv_start
  refine ⟨n, hInv, ?_⟩
  intro u
  have hb : build_trie W = W.foldl insertWord trieStart := rfl
  rw [hb, hfa u]
  have h0 : followAcc trieStart u = false := by
    cases u with
    | nil => rfl
    | cons c cs =>
        apply followAcc_eq_none
        simp [follow, trieStart, FSA.empty, dget]
  rw [h0]
  simp

/-- C6: the trie built from a word list recognizes exactly the members of
the list — `recognize(w)` is true for every `w` in `W` and false for every
string not in `W` (in particular a member's proper prefix is rejected). -/
theorem C6_build_trie_recognize (W : List (List Char)) (w : List Char)
    (fuel : Nat) :
    (build_trie W).recognize w fuel = .ok (decide (w ∈ W)) := by
  obtain ⟨n, hInv, hfa⟩ := build_trie_correct W
  unfold FSA.recognize
  rw [if_pos hInv.det, hInv.start_eq]
  rw [rdfa_follow _ (fun p hp => ((hInv.keys p hp).2).imp (fun t ht => ht.1)) w 0]
  cases hfw : follow (build_trie W) 0 w with
  | some q =>
      have h1 := hfa w
      rw [followAcc_eq_some _ q w hfw] at h1
      simp only [hfw]
      rw [h1]
  | none =>
      have h1 := hfa w
      rw [followAcc_eq_none _ w hfw] at h1
      simp only [hfw]
      rw [← h1]

theorem fromfsa_fold (L : List ((Nat × Char) × List Nat)) :
    ∀ (f : FST),
      (∀ e ∈ L, dget f.transitions (.int e.1.1, some e.1.2) = none) →
      ((L.map (fun e => ((PyState.int e.1.1 : PyState),
        (some e.1.2 : Symb)))).Nodup) →
      (∀ e ∈ L, ∃ t, e.2 = [t]) →
      (L.foldl (fun f entry =>
        entry.2.foldl (fun f s2 =>
          (f.add_transition (.int entry.1.1) (some entry.1.2) (some (.int s2))
            (some (some entry.1.2)) 0 false).1) f) f).transitions
      = f.transitions ++ L.map (fun e =>
          ((PyState.int e.1.1, some e.1.2),
           e.2.map (fun t => ((some e.1.2 : Symb), PyState.int t, (0 : Int))))) := by
  induction L with
  | nil =>
      intro f _ _ _
      simp
  | cons e L' ih =>
      intro f hfresh hnd hsingle
      obtain ⟨t, ht⟩ := hsingle e (List.mem_cons_self _ _)
      rw [List.foldl_cons, List.map_cons]
      have hstep : (e.2.foldl (fun f s2 =>
          (f.add_transition (.int e.1.1) (some e.1.2) (some (.int s2))
            (some (some e.1.2)) 0 false).1) f).transitions
          = f.transitions ++ [((PyState.int e.1.1, some e.1.2),
              e.2.map (fun t => ((some e.1.2 : Symb), PyState.int t, (0 : Int))))] := by
        rw [ht, List.foldl_cons, List.foldl_nil, List.map_cons, List.map_nil]
        rw [add_transition_trans_some]
        rw [dAddToSet_fresh _ _ _ (hfresh e (List.mem_cons_self _ _))]
      rw [List.map_cons] at hnd
      rw [List.nodup_cons] at hnd
      rw [ih _ ?_ hnd.2 (fun x hx => hsingle x (List.mem_cons_of_mem _ hx))]
      · rw [hstep, List.append_assoc, List.singleton_append]
      · intro x hx
        rw [hstep, dget_append_single, hfresh x (List.mem_cons_of_mem _ hx)]
        rw [if_neg ?_]
        intro hh
        simp only [Prod.mk.injEq, PyState.int.injEq, Option.some.injEq] at hh
        exact hnd.1 (by
          rw [List.mem_map]
          exact ⟨x, hx, by
            simp only [Prod.mk.injEq, PyState.int.injEq, Option.some.injEq]
            exact ⟨hh.1.symm, hh.2.symm⟩⟩)

theorem fromfsa_trans (A : FSA)
    (hnd : (A.transitions.map Prod.fst).Nodup)
    (hsingle : ∀ p ∈ A.transitions, ∃ t, p.2 = [t]) :
    (FST.fromfsa A).transitions
      = A.transitions.map (fun e =>
          ((PyState.int e.1.1, some e.1.2),
           e.2.map (fun t => ((some e.1.2 : Symb), PyState.int t, (0 : Int))))) := by
  have hinj : Function.Injective
      (fun k : Nat × Char => ((PyState.int k.1 : PyState), (some k.2 : Symb))) := by
    intro a b hab
    simp only [Prod.mk.injEq, PyState.int.injEq, Option.some.injEq] at hab
    exact Prod.ext hab.1 hab.2
  have hnd2 : ((A.transitions.map (fun e => ((PyState.int e.1.1 : PyState),
      (some e.1.2 : Symb))))).Nodup := by
    have : A.transitions.map (fun e => ((PyState.int e.1.1 : PyState),
        (some e.1.2 : Symb)))
        = (A.transitions.map Prod.fst).map
            (fun k : Nat × Char => ((PyState.int k.1 : PyState),
              (some k.2 : Symb))) := by
      rw [List.map_map]
      rfl
    rw [this]
    exact hnd.map hinj
  show ((A.transitions.foldl (fun f entry =>
      entry.2.foldl (fun f s2 =>
        (f.add_transition (.int entry.1.1) (some entry.1.2) (some (.int s2))
          (some (some entry.1.2)) 0 false).1) f) FST.init)).transitions = _
  rw [fromfsa_fold A.transitions FST.init (fun e he => rfl) hnd2 hsingle]
  rfl

theorem dget_map_trie (L : List ((Nat × Char) × List Nat)) (q : Nat) (c : Char) :
    dget (L.map (fun e =>
        ((PyState.int e.1.1, some e.1.2),
         e.2.map (fun t => ((some e.1.2 : Symb), PyState.int t, (0 : Int))))))
      (.int q, some c)
    = (dget L (q, c)).map (fun ts =>
        ts.map (fun t => ((some c : Symb), PyState.int t, (0 : Int)))) := by
  induction L with
  | nil => rfl
  | cons e r ih =>
      obtain ⟨⟨s1, c1⟩, v⟩ := e
      rw [List.map_cons, dget_cons, dget_cons]
      by_cases h : (s1, c1) = (q, c)
      · simp only [Prod.mk.injEq] at h
        obtain ⟨h1, h2⟩ := h
        subst h1
        subst h2
        rw [if_pos rfl, if_pos rfl]
        rfl
      · have h' : ¬ ((PyState.int s1, (some c1 : Symb)) = (.int q, some c)) := by
          intro hh
          simp only [Prod.mk.injEq, PyState.int.injEq, Option.some.injEq] at hh
          exact h (Prod.ext hh.1 hh.2)
        rw [if_neg h', if_neg h, ih]

theorem dget_map_trie_eps (L : List ((Nat × Char) × List Nat)) (st : PyState) :
    dget (L.map (fun e =>
        ((PyState.int e.1.1, some e.1.2),
         e.2.map (fun t => ((some e.1.2 : Symb), PyState.int t, (0 : Int))))))
      (st, none)
    = none := by
  induction L with
  | nil => rfl
  | cons e r ih =>
      rw [List.map_cons, dget_cons, if_neg (by simp), ih]

theorem tLoop_nil (m : FST) (s : List Char) (f : Nat)
    (res : List (List Char × Int)) : tLoop m s f [] res = .ok res := by
  cases f <;> rfl

theorem get_append_cons (done : List Char) (c : Char) (r : List Char)
    (h : done.length < (done ++ c :: r).length) :
    (done ++ c :: r).get ⟨done.length, h⟩ = c := by
  induction done with
  | nil => rfl
  | cons d ds ih =>
      show (ds ++ c :: r).get ⟨ds.length, _⟩ = c
      exact ih _

theorem tloop_trie (A : FSA) (n : Nat) (hInv : TrieInv A n) :
    ∀ (rest done : List Char) (q : Nat) (f pos : Nat),
      follow A 0 done = some q → pos = done.length → rest.length + 1 ≤ f →
      tLoop (FST.fromfsa A) (done ++ rest) f
        [⟨.int q, done, 0, pos,
          decide (PyState.int q ∈ (FST.fromfsa A).accepting)⟩] []
      = .ok (match follow A q rest with
             | some qf => if qf ∈ A.accepting then [(done ++ rest, 0)] else []
             | none => []) := by
  have hsingle : ∀ p ∈ A.transitions, ∃ t, p.2 = [t] :=
    fun p hp => ((hInv.keys p hp).2).imp (fun t ht => ht.1)
  have htrans := fromfsa_trans A hInv.keys_nodup hsingle
  intro rest
  induction rest with
  | nil =>
      intro done q f pos hf hpos hfuel
      cases f with
      | zero => omega
      | succ f' =>
          subst hpos
          rw [List.append_nil]
          have hround : tRound (FST.fromfsa A) done
              [⟨.int q, done, 0, done.length,
                decide (PyState.int q ∈ (FST.fromfsa A).accepting)⟩] []
              = ([], if decide (PyState.int q ∈ (FST.fromfsa A).accepting)
                  then [(done, 0)] else []) := by
            unfold tRound
            rw [List.foldl_cons, List.foldl_nil, if_pos rfl]
            rfl
          have hstep : tLoop (FST.fromfsa A) done (f' + 1)
              [⟨.int q, done, 0, done.length,
                decide (PyState.int q ∈ (FST.fromfsa A).accepting)⟩] []
              = tLoop (FST.fromfsa A) done f'
                  (tRound (FST.fromfsa A) done
                    [⟨.int q, done, 0, done.length,
                      decide (PyState.int q ∈ (FST.fromfsa A).accepting)⟩] []).1
                  (tRound (FST.fromfsa A) done
                    [⟨.int q, done, 0, done.length,
                      decide (PyState.int q ∈ (FST.fromfsa A).accepting)⟩] []).2 :=
            rfl
          rw [hstep, hround]
          dsimp only
          rw [tLoop_nil]
          have hdec : decide (PyState.int q ∈ (FST.fromfsa A).accepting)
              = decide (q ∈ A.accepting) := by
            show decide (PyState.int q ∈ A.accepting.map PyState.int) = _
            simp
          rw [hdec]
          by_cases hacc : q ∈ A.accepting <;> simp [hacc, follow]
  | cons c rest' ihrest =>
      intro done q f pos hf hpos hfuel
      cases f with
      | zero =>
          exact absurd hfuel (by simp)
      | succ f' =>
          subst hpos
          have hlt : done.length < (done ++ c :: rest').length := by simp
          have hne : ¬ (done.length = (done ++ c :: rest').length) := by
            simp
          have hget : (done ++ c :: rest').get ⟨done.length, hlt⟩ = c :=
            get_append_cons done c rest' hlt
          have heps : dget (FST.fromfsa A).transitions (.int q, none) = none := by
            rw [htrans, dget_map_trie_eps]
          have hfuel' : rest'.length + 1 ≤ f' := by
            simp only [List.length_cons] at hfuel
            omega
          cases hd : dget A.transitions (q, c) with
          | some l =>
              obtain ⟨-, t, htl, htlt⟩ := hInv.keys _ (dget_mem _ _ _ hd)
              dsimp only at htl
              subst htl
              have hsym : dget (FST.fromfsa A).transitions (.int q, some c)
                  = some [((some c : Symb), PyState.int t, (0 : Int))] := by
                rw [htrans, dget_map_trie, hd]
                rfl
              have hexp : expandPath (FST.fromfsa A)
                  ⟨.int q, done, 0, done.length,
                    decide (PyState.int q ∈ (FST.fromfsa A).accepting)⟩ c
                  = [⟨.int t, done ++ [c], 0 + 0, done.length + 1,
                      decide (PyState.int t ∈ (FST.fromfsa A).accepting)⟩] := by
                unfold expandPath
                rw [hsym, heps]
                rfl
              have hround : tRound (FST.fromfsa A) (done ++ c :: rest')
                  [⟨.int q, done, 0, done.length,
                    decide (PyState.int q ∈ (FST.fromfsa A).accepting)⟩] []
                  = ([⟨.int t, done ++ [c], 0 + 0, done.length + 1,
                      decide (PyState.int t ∈ (FST.fromfsa A).accepting)⟩], []) := by
                unfold tRound
                rw [List.foldl_cons, List.foldl_nil, if_neg hne, dif_pos hlt,
                    hget, hexp]
                rfl
              have hstep : tLoop (FST.fromfsa A) (done ++ c :: rest') (f' + 1)
                  [⟨.int q, done, 0, done.length,
                    decide (PyState.int q ∈ (FST.fromfsa A).accepting)⟩] []
                  = tLoop (FST.fromfsa A) (done ++ c :: rest') f'
                      [⟨.int t, done ++ [c], 0 + 0, done.length + 1,
                        decide (PyState.int t ∈ (FST.fromfsa A).accepting)⟩] [] := by
                rw [show tLoop (FST.fromfsa A) (done ++ c :: rest') (f' + 1)
                    [⟨.int q, done, 0, done.length,
                      decide (PyState.int q ∈ (FST.fromfsa A).accepting)⟩] []
                    = tLoop (FST.fromfsa A) (done ++ c :: rest') f'
                        (tRound (FST.fromfsa A) (done ++ c :: rest')
                          [⟨.int q, done, 0, done.length,
                            decide (PyState.int q ∈ (FST.fromfsa A).accepting)⟩]
                          []).1
                        (tRound (FST.fromfsa A) (done ++ c :: rest')
                          [⟨.int q, done, 0, done.length,
                            decide (PyState.int q ∈ (FST.fromfsa A).accepting)⟩]
                          []).2 from rfl, hround]
              rw [hstep]
              have h00 : (0 : Int) + 0 = 0 := rfl
              rw [h00]
              have hf2 : follow A 0 (done ++ [c]) = some t := by
                rw [follow_append, hf]
                show follow A q [c] = some t
                simp only [follow, hd]
              have hs : done ++ c :: rest' = (done ++ [c]) ++ rest' := by simp
              rw [hs]
              rw [ihrest (done ++ [c]) t f' (done.length + 1) hf2 (by simp)
                hfuel']
              have hstepf : follow A q (c :: rest') = follow A t rest' := by
                simp only [follow, hd]
              rw [hstepf]
          | none =>
              have hsym : dget (FST.fromfsa A).transitions (.int q, some c)
                  = none := by
                rw [htrans, dget_map_trie, hd]
                rfl
              have hexp : expandPath (FST.fromfsa A)
                  ⟨.int q, done, 0, done.length,
                    decide (PyState.int q ∈ (FST.fromfsa A).accepting)⟩ c
                  = [] := by
                unfold expandPath
                rw [hsym, heps]
                rfl
              have hround : tRound (FST.fromfsa A) (done ++ c :: rest')
                  [⟨.int q, done, 0, done.length,
                    decide (PyState.int q ∈ (FST.fromfsa A).accepting)⟩] []
                  = ([], []) := by
                unfold tRound
                rw [List.foldl_cons, List.foldl_nil, if_neg hne, dif_pos hlt,
                    hget, hexp]
                rfl
              rw [show tLoop (FST.fromfsa A) (done ++ c :: rest') (f' + 1)
                  [⟨.int q, done, 0, done.length,
                    decide (PyState.int q ∈ (FST.fromfsa A).accepting)⟩] []
                  = tLoop (FST.fromfsa A) (done ++ c :: rest') f'
                      (tRound (FST.fromfsa A) (done ++ c :: rest')
                        [⟨.int q, done, 0, done.length,
                          decide (PyState.int q ∈ (FST.fromfsa A).accepting)⟩]
                        []).1
                      (tRound (FST.fromfsa A) (done ++ c :: rest')
                        [⟨.int q, done, 0, done.length,
                          decide (PyState.int q ∈ (FST.fromfsa A).accepting)⟩]
                        []).2 from rfl, hround]
              dsimp only
              rw [tLoop_nil]
              have hstepf : follow A q (c :: rest') = none := by
                simp only [follow, hd]
              rw [hstepf]

/-- C4, counterexample to the claim as stated: on the EMPTY string the
claim demands the empty result set (the empty string is not a member of
the one-word lexicon ["a"]), but `transduce` indexes `s[0]` before any
length check and raises IndexError instead of returning a set. -/
theorem C4_counterexample_empty_string :
    (FST.fromfsa (build_trie [['a']])).transduce [] 5 = .indexError ∧
    (FST.fromfsa (build_trie [['a']])).transduce [] 5 ≠ TdResult.ok [] := by
  decide

/-- C4, amended: for every word list `W` and every NON-EMPTY string `s`
(the empty string raises IndexError instead), transducing `s` through the
identity transducer lifted from the trie of `W` returns exactly
`{(s, 0)}` when `s` is a member of `W` and the empty set otherwise.
The fuel bound `|s| + 2` covers the rounds of the frontier loop. -/
theorem C4_amended_transduce_trie (W : List (List Char)) (w : List Char)
    (fuel : Nat) (hw : w ≠ []) (hfuel : w.length + 2 ≤ fuel) :
    (FST.fromfsa (build_trie W)).transduce w fuel
      = .ok (if w ∈ W then [(w, (0 : Int))] else []) := by
  obtain ⟨n, hInv, hfa⟩ := build_trie_correct W
  have hsingle : ∀ p ∈ (build_trie W).transitions, ∃ t, p.2 = [t] :=
    fun p hp => ((hInv.keys p hp).2).imp (fun t ht => ht.1)
  have htrans := fromfsa_trans _ hInv.keys_nodup hsingle
  have heps : dget (FST.fromfsa (build_trie W)).transitions
      (.int 0, none) = none := by
    rw [htrans, dget_map_trie_eps]
  have hstart : (FST.fromfsa (build_trie W)).start_state = some (.int 0) := by
    show (build_trie W).start_state.map PyState.int = _
    rw [hInv.start_eq]
    rfl
  cases w with
  | nil => exact absurd rfl hw
  | cons c0 rest =>
      unfold FST.transduce
      dsimp only
      rw [hstart]
      dsimp only
      cases hd : dget (build_trie W).transitions (0, c0) with
      | none =>
          have hsym : dget (FST.fromfsa (build_trie W)).transitions
              (.int 0, some c0) = none := by
            rw [htrans, dget_map_trie, hd]
            rfl
          rw [hsym, heps]
          simp only [Option.getD_none, List.map_nil, List.append_nil]
          rw [tLoop_nil]
          have hfol : follow (build_trie W) 0 (c0 :: rest) = none := by
            simp only [follow, hd]
          have h2 := hfa (c0 :: rest)
          rw [followAcc_eq_none _ _ hfol] at h2
          have hnm : ¬ ((c0 :: rest) ∈ W) := by
            simpa using h2.symm
          rw [if_neg hnm]
      | some l =>
          obtain ⟨-, t, htl, htlt⟩ := hInv.keys _ (dget_mem _ _ _ hd)
          dsimp only at htl
          subst htl
          have hsym : dget (FST.fromfsa (build_trie W)).transitions
              (.int 0, some c0) = some [((some c0 : Symb), PyState.int t,
                (0 : Int))] := by
            rw [htrans, dget_map_trie, hd]
            rfl
          rw [hsym, heps]
          simp only [Option.getD_none, Option.getD_some, List.map_nil,
            List.map_cons, List.append_nil]
          have hf0 : follow (build_trie W) 0 [c0] = some t := by
            simp only [follow, hd]
          rw [show (c0 :: rest : List Char) = [c0] ++ rest from rfl]
          have hfuel2 : rest.length + 1 ≤ fuel := by
            simp only [List.length_cons] at hfuel
            omega
          have happ := tloop_trie (build_trie W) n hInv rest [c0] t fuel 1
            hf0 rfl hfuel2
          rw [show (⟨PyState.int t, outAppend [] (some c0), (0 : Int), 1,
              decide (PyState.int t ∈ (FST.fromfsa (build_trie W)).accepting)⟩
              : TPath)
              = ⟨PyState.int t, [c0], (0 : Int), 1,
                decide (PyState.int t
                  ∈ (FST.fromfsa (build_trie W)).accepting)⟩ from rfl]
          rw [happ]
          have hw2 : follow (build_trie W) 0 ([c0] ++ rest)
              = follow (build_trie W) t rest := by
            rw [follow_append, hf0]
            rfl
          cases hft : follow (build_trie W) t rest with
          | some qf =>
              have h2 := hfa ([c0] ++ rest)
              rw [followAcc_eq_some _ qf _ (by rw [hw2, hft])] at h2
              simp only [hft]
              by_cases hacc : qf ∈ (build_trie W).accepting <;>
                by_cases hmem : ([c0] ++ rest) ∈ W <;>
                simp [hacc, hmem] at h2 ⊢ <;>
                simp [h2]
          | none =>
              have h2 := hfa ([c0] ++ rest)
              rw [followAcc_eq_none _ _ (by rw [hw2, hft])] at h2
              simp only [hft]
              have hnm : ¬ (([c0] ++ rest) ∈ W) := by
                simpa using h2.symm
              rw [if_neg hnm]

theorem C4_amended_witness :
    (['a', 'b'] : List Char) ≠ [] ∧
    (FST.fromfsa (build_trie [['a', 'b']])).transduce ['a', 'b'] 4
      = .ok [(['a', 'b'], (0 : Int))] := by
  refine ⟨by decide, ?_⟩
  have h := C4_amended_transduce_trie [['a', 'b']] ['a', 'b'] 4 (by decide)
    (by decide)
  simpa using h

theorem foldl_max_le_init (l : List Nat) : ∀ a : Nat, a ≤ l.foldl max a := by
  induction l with
  | nil => intro a; exact Nat.le_refl a
  | cons y r ih =>
      intro a
      exact Nat.le_trans (Nat.le_max_left a y) (ih (max a y))

theorem mem_le_foldl_max (l : List Nat) : ∀ (a x : Nat), x ∈ l →
    x ≤ l.foldl max a := by
  induction l with
  | nil => intro a x hx; exact absurd hx (by simp)
  | cons y r ih =>
      intro a x hx
      rcases List.mem_cons.mp hx with h | h
      · subst h
        exact Nat.le_trans (Nat.le_max_right a x) (foldl_max_le_init r _)
      · exact ih _ x h

theorem tRound_mem (m : FST) (s : List Char) :
    ∀ (frontier : List TPath) (acc0 : List TPath)
      (res0 : List (List Char × Int)) (p' : TPath),
      p' ∈ (frontier.foldl (fun acc p =>
        if p.input_pos = s.length then
          (acc.1, if p.is_accepting then addToSet acc.2 (p.string, p.weight)
            else acc.2)
        else if h : p.input_pos < s.length then
          (acc.1 ++ expandPath m p (s.get ⟨p.input_pos, h⟩), acc.2)
        else (acc.1 ++ [p], acc.2)) (acc0, res0)).1 →
      p' ∈ acc0 ∨ ∃ p, p ∈ frontier ∧
        ((∃ h : p.input_pos < s.length,
            p' ∈ expandPath m p (s.get ⟨p.input_pos, h⟩)) ∨
          (¬ p.input_pos < s.length ∧ p.input_pos ≠ s.length ∧ p' = p)) := by
  intro frontier
  induction frontier with
  | nil =>
      intro acc0 res0 p' h
      exact Or.inl h
  | cons p fr ih =>
      intro acc0 res0 p' h
      rw [List.foldl_cons] at h
      by_cases h1 : p.input_pos = s.length
      · rw [if_pos h1] at h
        rcases ih _ _ _ h with h2 | ⟨p0, hp0, hcase⟩
        · exact Or.inl h2
        · exact Or.inr ⟨p0, List.mem_cons_of_mem _ hp0, hcase⟩
      · rw [if_neg h1] at h
        by_cases h2 : p.input_pos < s.length
        · rw [dif_pos h2] at h
          rcases ih _ _ _ h with h3 | ⟨p0, hp0, hcase⟩
          · rcases List.mem_append.mp h3 with h4 | h4
            · exact Or.inl h4
            · exact Or.inr ⟨p, List.mem_cons_self _ _, Or.inl ⟨h2, h4⟩⟩
          · exact Or.inr ⟨p0, List.mem_cons_of_mem _ hp0, hcase⟩
        · rw [dif_neg h2] at h
          rcases ih _ _ _ h with h3 | ⟨p0, hp0, hcase⟩
          · rcases List.mem_append.mp h3 with h4 | h4
            · exact Or.inl h4
            · rw [List.mem_singleton] at h4
              exact Or.inr ⟨p, List.mem_cons_self _ _, Or.inr ⟨h2, h1, h4⟩⟩
          · exact Or.inr ⟨p0, List.mem_cons_of_mem _ hp0, hcase⟩

theorem target_mem_of_dget (m : FST) (k : PyState × Symb)
    (l : List (Symb × PyState × Int)) (tr : Symb × PyState × Int)
    (hd : dget m.transitions k = some l) (htr : tr ∈ l) :
    tr.2.1 ∈ targetsOf m := by
  unfold targetsOf
  rw [List.mem_flatMap]
  exact ⟨(k, l), dget_mem _ _ _ hd, List.mem_map.mpr ⟨tr, htr, rfl⟩⟩

theorem expand_measure (m : FST) (rank : PyState → Nat) (B : Nat)
    (hB : ∀ st ∈ targetsOf m, rank st ≤ B)
    (hdec : ∀ e ∈ m.transitions, ∀ tr ∈ e.2, e.1.2 = none →
      rank tr.2.1 < rank e.1.1)
    (s : List Char) (p : TPath) (hlt : p.input_pos < s.length) (c : Char)
    (p' : TPath) (hmem : p' ∈ expandPath m p c) :
    p'.input_pos ≤ s.length ∧
      (s.length - p'.input_pos) * (B + 1) + rank p'.current_state
        < (s.length - p.input_pos) * (B + 1) + rank p.current_state := by
  unfold expandPath at hmem
  rcases List.mem_append.mp hmem with hside | hside
  · rw [List.mem_map] at hside
    obtain ⟨tr, htr, hp'⟩ := hside
    cases hdg : dget m.transitions (p.current_state, some c) with
    | none =>
        rw [hdg] at htr
        exact absurd htr (by simp)
    | some l =>
        rw [hdg] at htr
        simp only [Option.getD_some] at htr
        have hrank : rank tr.2.1 ≤ B :=
          hB _ (target_mem_of_dget m _ l tr hdg htr)
        subst hp'
        refine ⟨by dsimp only; omega, ?_⟩
        dsimp only
        have key : (s.length - (p.input_pos + 1)) * (B + 1) + B
            < (s.length - p.input_pos) * (B + 1) := by
          have h1 : s.length - (p.input_pos + 1) + 1
              = s.length - p.input_pos := by omega
          calc (s.length - (p.input_pos + 1)) * (B + 1) + B
              < (s.length - (p.input_pos + 1)) * (B + 1) + (B + 1) := by omega
            _ = (s.length - (p.input_pos + 1) + 1) * (B + 1) := by
                rw [Nat.succ_mul]
            _ = (s.length - p.input_pos) * (B + 1) := by rw [h1]
        omega
  · rw [List.mem_map] at hside
    obtain ⟨tr, htr, hp'⟩ := hside
    cases hdg : dget m.transitions (p.current_state, none) with
    | none =>
        rw [hdg] at htr
        exact absurd htr (by simp)
    | some l =>
        rw [hdg] at htr
        simp only [Option.getD_some] at htr
        have hrank : rank tr.2.1 < rank p.current_state :=
          hdec _ (dget_mem _ _ _ hdg) tr htr rfl
        subst hp'
        refine ⟨by dsimp only; omega, ?_⟩
        dsimp only
        omega

theorem tLoop_terminates (m : FST) (rank : PyState → Nat) (B : Nat)
    (hB : ∀ st ∈ targetsOf m, rank st ≤ B)
    (hdec : ∀ e ∈ m.transitions, ∀ tr ∈ e.2, e.1.2 = none →
      rank tr.2.1 < rank e.1.1)
    (s : List Char) :
    ∀ (f : Nat) (frontier : List TPath) (res : List (List Char × Int)),
      (∀ p ∈ frontier, p.input_pos ≤ s.length ∧
        (s.length - p.input_pos) * (B + 1) + rank p.current_state < f) →
      ∃ r, tLoop m s f frontier res = .ok r := by
  intro f
  induction f with
  | zero =>
      intro frontier res hfr
      cases frontier with
      | nil => exact ⟨res, rfl⟩
      | cons p fr =>
          have := (hfr p (List.mem_cons_self _ _)).2
          omega
  | succ f ih =>
      intro frontier res hfr
      cases frontier with
      | nil => exact ⟨res, rfl⟩
      | cons p fr =>
          have hstep : tLoop m s (f + 1) (p :: fr) res
              = tLoop m s f (tRound m s (p :: fr) res).1
                  (tRound m s (p :: fr) res).2 := rfl
          rw [hstep]
          apply ih
          intro p' hp'
          have hmem := tRound_mem m s (p :: fr) [] res p' hp'
          rcases hmem with h1 | ⟨p0, hp0, hcase⟩
          · exact absurd h1 (by simp)
          · obtain ⟨hle0, hlt0⟩ := hfr p0 hp0
            rcases hcase with ⟨hlt, hexp⟩ | ⟨hnlt, hne, heq⟩
            · obtain ⟨hle', hdecm⟩ := expand_measure m rank B hB hdec s p0
                hlt _ p' hexp
              exact ⟨hle', by omega⟩
            · omega

/-- C8: on every transducer whose epsilon-input transitions form no cycle
(witnessed by a rank that decreases along every epsilon edge, which on the
finite transition table is equivalent to epsilon-acyclicity) and every
non-empty input string, `transduce` terminates: with enough fuel the
frontier empties and an ordinary result set is returned. -/
theorem C8_transduce_terminates (m : FST) (s : List Char)
    (hnc : NoEpsCycle m) (hs : s ≠ []) :
    ∃ (fuel : Nat) (r : List (List Char × Int)),
      m.transduce s fuel = .ok r := by
  obtain ⟨rank, hdec⟩ := hnc
  cases s with
  | nil => exact absurd rfl hs
  | cons c0 rest =>
      have hB : ∀ st ∈ targetsOf m,
          rank st ≤ ((targetsOf m).map rank).foldl max 0 := fun st hst =>
        mem_le_foldl_max _ 0 _ (List.mem_map.mpr ⟨st, hst, rfl⟩)
      refine ⟨((c0 :: rest).length + 1)
        * (((targetsOf m).map rank).foldl max 0 + 1), ?_⟩
      unfold FST.transduce
      dsimp only
      cases hst : m.start_state with
      | none =>
          exact ⟨[], tLoop_nil m (c0 :: rest) _ []⟩
      | some st =>
          dsimp only
          apply tLoop_terminates m rank _ hB hdec (c0 :: rest)
          intro p hp
          have hlen : (c0 :: rest).length = rest.length + 1 := rfl
          have hmul1 : ((c0 :: rest).length + 1)
              * (((targetsOf m).map rank).foldl max 0 + 1)
              = (c0 :: rest).length
                  * (((targetsOf m).map rank).foldl max 0 + 1)
                + (((targetsOf m).map rank).foldl max 0 + 1) :=
            Nat.succ_mul _ _
          rcases List.mem_append.mp hp with hside | hside <;>
            rw [List.mem_map] at hside
          · obtain ⟨tr, htr, hp'⟩ := hside
            cases hdg : dget m.transitions (st, some c0) with
            | none =>
                rw [hdg] at htr
                exact absurd htr (by simp)
            | some l =>
                rw [hdg] at htr
                simp only [Option.getD_some] at htr
                have hrank : rank tr.2.1
                    ≤ ((targetsOf m).map rank).foldl max 0 :=
                  hB _ (target_mem_of_dget m _ l tr hdg htr)
                subst hp'
                refine ⟨by dsimp only; omega, ?_⟩
                dsimp only
                have hmul2 : ((c0 :: rest).length - 1)
                    * (((targetsOf m).map rank).foldl max 0 + 1)
                    ≤ (c0 :: rest).length
                        * (((targetsOf m).map rank).foldl max 0 + 1) :=
                  Nat.mul_le_mul_right _ (by omega)
                omega
          · obtain ⟨tr, htr, hp'⟩ := hside
            cases hdg : dget m.transitions (st, none) with
            | none =>
                rw [hdg] at htr
                exact absurd htr (by simp)
            | some l =>
                rw [hdg] at htr
                simp only [Option.getD_some] at htr
                have hrank : rank tr.2.1
                    ≤ ((targetsOf m).map rank).foldl max 0 :=
                  hB _ (target_mem_of_dget m _ l tr hdg htr)
                subst hp'
                refine ⟨by dsimp only; omega, ?_⟩
                dsimp only
                have h0 : ((c0 :: rest).length - 0)
                    * (((targetsOf m).map rank).foldl max 0 + 1)
                    = (c0 :: rest).length
                        * (((targetsOf m).map rank).foldl max 0 + 1) := by
                  rw [Nat.sub_zero]
                omega

theorem C8_witness :
    NoEpsCycle m1eps ∧ (['a'] : List Char) ≠ [] ∧
    ∃ (fuel : Nat) (r : List (List Char × Int)),
      m1eps.transduce ['a'] fuel = .ok r :=
  ⟨⟨fun st => if st = PyState.int 0 then 1 else 0, by decide⟩, by decide,
   C8_transduce_terminates m1eps ['a']
     ⟨fun st => if st = PyState.int 0 then 1 else 0, by decide⟩ (by decide)⟩
